import Mathlib

/-
Verification of the pricing-expression DSL of the Scrawn SDK
(src/packages/scrawn/src/core/pricing/{types,validate,serialize}.ts).

Shallow embedding conventions:
* The TypeScript AST (`AmountExpr | TagExpr | OpExpr`) becomes the inductive
  type `PriceExpr`; `readonly PriceExpr[]` becomes `List PriceExpr`.
* A JavaScript `number` is modelled by `JSNumber` through exactly the
  observations the pricing code makes of it: a finite integer carries its
  exact integer value, a finite non-integer carries its `toString` rendering,
  and `NaN` / `±Infinity` are explicit constructors.  `Number.isFinite`,
  `Number.isInteger`, `=== 0` and `toString` are modelled accordingly;
  `toString` of an integer value is `jsIntToString`, which follows the
  ECMAScript algorithm applied to the exact value: plain decimal for
  magnitudes below 10^21 and exponential notation (`1e+21`) from there on.
* Throwing `PricingExpressionError(message)` is modelled by
  `Except String α` with the error carrying the message string; builders
  that return a node or throw become functions into `Except String PriceExpr`.
  The `typeof name !== "string"` guard of `validateTagName` is a dynamic
  typing artifact that cannot fire for `string` inputs and is outside the
  typed model.
* JavaScript string operations are modelled over `String`/`List Char`:
  `trim` as `jsTrim` (dropping the ECMAScript whitespace set on both ends),
  the tag-name regex `^[A-Za-z_][A-Za-z0-9_-]*$` as `matchesTagRegex`,
  `replace(/\x27/g, "\\\x27")` as `escapeQuotes`, `join(",")` as
  `serializeJoin`, and `" ".repeat(n)` as `spacesRepeat`.
-/

namespace Scrawn

/-- JSNumber models a JavaScript number by the observations the pricing
code makes of it: `int n` is a finite integer of value `n`, `nonIntFinite r`
is a finite non-integer whose `toString` rendering is `r`, and `nan` /
`inf b` are the non-finite values (`b` marks negative infinity). -/
inductive JSNumber where
  | int (n : Int)
  | nonIntFinite (rep : String)
  | nan
  | inf (neg : Bool)
deriving DecidableEq

/-- JSNumber.isFinite models `Number.isFinite`. -/
def JSNumber.isFinite : JSNumber → Bool
  | .int _ => true
  | .nonIntFinite _ => true
  | .nan => false
  | .inf _ => false

/-- JSNumber.isInteger models `Number.isInteger`. -/
def JSNumber.isInteger : JSNumber → Bool
  | .int _ => true
  | _ => false

/-- JSNumber.isZero models the strict comparison `value === 0` (note
`Number.isInteger 0`, so a non-integer value is never `=== 0`). -/
def JSNumber.isZero : JSNumber → Bool
  | .int 0 => true
  | _ => false

/-- digitChar gives the decimal digit character for `d < 10`
(any argument `≥ 9` maps to the digit 9). -/
def digitChar (d : Nat) : Char :=
  match d with
  | 0 => '0'
  | 1 => '1'
  | 2 => '2'
  | 3 => '3'
  | 4 => '4'
  | 5 => '5'
  | 6 => '6'
  | 7 => '7'
  | 8 => '8'
  | _ => '9'

/-- natDigitsAux writes `n` in decimal, most significant digit first; the
first argument is recursion fuel (any fuel `> n` gives the full rendering). -/
def natDigitsAux : Nat → Nat → List Char
  | _, 0 => []
  | n, fuel + 1 =>
    if n < 10 then [digitChar n]
    else natDigitsAux (n / 10) fuel ++ [digitChar (n % 10)]

/-- natDigitChars is the decimal rendering of a natural number. -/
def natDigitChars (n : Nat) : List Char := natDigitsAux n (n + 1)

/-- stripTrailingZeros removes the trailing zero characters of a digit
string; the ECMAScript number-to-string algorithm renders the remaining
significant digits and accounts for the removed zeros in the exponent. -/
def stripTrailingZeros (l : List Char) : List Char :=
  (l.reverse.dropWhile (fun c => c = '0')).reverse

/-- jsNatToString models the ECMAScript `ToString` algorithm applied to a
number whose value is exactly the nonnegative integer `m` (the same
exact-value idealization as `JSNumber.int` itself): plain decimal while
the value has at most 21 digits, and exponential notation
`d[.frac]e+(digits-1)` (the significant digits with a single leading
digit, then the decimal exponent) from 10^21 upward — so
`(1e21).toString()` is `"1e+21"`, not a plain integer numeral. -/
def jsNatToString (m : Nat) : String :=
  if (natDigitChars m).length ≤ 21 then String.mk (natDigitChars m)
  else
    match stripTrailingZeros (natDigitChars m) with
    | [] => "0"
    | d :: rest =>
      (if rest.isEmpty then String.mk [d]
       else String.mk [d] ++ "." ++ String.mk rest) ++
        "e+" ++ String.mk (natDigitChars ((natDigitChars m).length - 1))

/-- jsIntToString models `Number.prototype.toString` on a finite integer
value: a minus sign for negative values followed by the rendering of the
magnitude (decimal below 10^21, exponential from 10^21 upward). -/
def jsIntToString (n : Int) : String :=
  if n < 0 then "-" ++ jsNatToString n.natAbs
  else jsNatToString n.natAbs

/-- jsNumToString models `Number.prototype.toString` / template-literal
interpolation on a `JSNumber`. -/
def jsNumToString : JSNumber → String
  | .int n => jsIntToString n
  | .nonIntFinite r => r
  | .nan => "NaN"
  | .inf true => "-Infinity"
  | .inf false => "Infinity"

/-- OpType models the TS union `"ADD" | "SUB" | "MUL" | "DIV"`. -/
inductive OpType where
  | ADD
  | SUB
  | MUL
  | DIV
deriving DecidableEq

/-- OpType.lower models `op.toLowerCase()`. -/
def OpType.lower : OpType → String
  | .ADD => "add"
  | .SUB => "sub"
  | .MUL => "mul"
  | .DIV => "div"

/-- PriceExpr models the TS discriminated union
`AmountExpr | TagExpr | OpExpr` from types.ts. -/
inductive PriceExpr where
  | amount (value : JSNumber)
  | tag (name : String)
  | op (op : OpType) (args : List PriceExpr)

/-- ExprInput models the TS union `PriceExpr | number`. -/
inductive ExprInput where
  | expr (e : PriceExpr)
  | num (n : JSNumber)

/-- toExpr models `toExpr` from the builders: a raw number is wrapped as an
Amount node, an expression is passed through. -/
def toExpr : ExprInput → PriceExpr
  | .num n => .amount n
  | .expr e => e

/-- squote is the single-quote character (code point 39). -/
def squote : Char := Char.ofNat 39

/-- squoteStr is the one-character string holding a single quote. -/
def squoteStr : String := String.mk [squote]

/-- escapeQuotes models `name.replace(/\x27/g, "\\\x27")` from
`serializeTag`: every single quote becomes backslash-quote. -/
def escapeQuotes (s : String) : String :=
  String.mk ((s.data.map (fun c => if c = squote then ['\\', squote] else [c])).flatten)

/-- serializeAmount models `serializeAmount`: just `expr.value.toString()`. -/
def serializeAmount (value : JSNumber) : String := jsNumToString value

/-- serializeTag models `serializeTag`: `tag(\x27<escaped name>\x27)`. -/
def serializeTag (name : String) : String :=
  "tag(" ++ squoteStr ++ escapeQuotes name ++ squoteStr ++ ")"

mutual
/-- serializeExpr models `serializeExpr` from serialize.ts: dispatch on the
node kind. -/
def serializeExpr : PriceExpr → String
  | .amount v => serializeAmount v
  | .tag name => serializeTag name
  | .op o args => o.lower ++ "(" ++ serializeJoin args ++ ")"

/-- serializeJoin models `expr.args.map(serializeExpr).join(",")` from
`serializeOp`. -/
def serializeJoin : List PriceExpr → String
  | [] => ""
  | [e] => serializeExpr e
  | e :: e2 :: rest => serializeExpr e ++ "," ++ serializeJoin (e2 :: rest)
end

/-- spacesRepeat models `" ".repeat(n)`. -/
def spacesRepeat (n : Nat) : String := String.mk (List.replicate n ' ')

mutual
/-- prettyPrintInternal models `prettyPrintInternal` from serialize.ts:
`(expr, level, indent)` with `pad = " ".repeat(level * indent)`. -/
def prettyPrintInternal : PriceExpr → Nat → Nat → String
  | .amount v, _, _ => jsNumToString v
  | .tag name, _, _ => "tag(" ++ squoteStr ++ name ++ squoteStr ++ ")"
  | .op o args, level, indent =>
    if args.length = 0 then o.lower ++ "()"
    else
      o.lower ++ "(\n" ++ prettyPrintArgs args (level + 1) indent ++ "\n" ++
        spacesRepeat (level * indent) ++ ")"

/-- prettyPrintArgs models the body of `prettyPrintInternal`'s op case:
`args.map(arg => " ".repeat(lvl * indent) + prettyPrintInternal(arg, lvl,
indent)).join(",\n")` where `lvl` is the child level. -/
def prettyPrintArgs : List PriceExpr → Nat → Nat → String
  | [], _, _ => ""
  | [a], lvl, indent => spacesRepeat (lvl * indent) ++ prettyPrintInternal a lvl indent
  | a :: a2 :: rest, lvl, indent =>
    spacesRepeat (lvl * indent) ++ prettyPrintInternal a lvl indent ++ ",\n" ++
      prettyPrintArgs (a2 :: rest) lvl indent
end

/-- prettyPrintExpr models `prettyPrintExpr(expr, indent = 2)`. -/
def prettyPrintExpr (e : PriceExpr) (indent : Nat := 2) : String :=
  prettyPrintInternal e 0 indent

/-- amountFiniteMsg is the message of the non-finite amount error. -/
def amountFiniteMsg (value : JSNumber) : String :=
  "Amount must be a finite number, got: " ++ jsNumToString value

/-- amountIntegerMsg is the message of the non-integer amount error. -/
def amountIntegerMsg (value : JSNumber) : String :=
  "Amount must be an integer (cents), got: " ++ jsNumToString value ++
    ". Hint: Use cents instead of dollars (e.g., 250 instead of 2.50)"

/-- validateAmount models `validateAmount` from validate.ts. -/
def validateAmount (value : JSNumber) : Except String Unit :=
  if !value.isFinite then .error (amountFiniteMsg value)
  else if !value.isInteger then .error (amountIntegerMsg value)
  else .ok ()

/-- isJSWhitespaceChar decides membership in the ECMAScript `WhiteSpace ∪
LineTerminator` set that `String.prototype.trim` removes. -/
def isJSWhitespaceChar (c : Char) : Bool :=
  c.toNat = 9 || c.toNat = 10 || c.toNat = 11 || c.toNat = 12 || c.toNat = 13 ||
  c.toNat = 32 || c.toNat = 160 || c.toNat = 0x1680 ||
  (0x2000 ≤ c.toNat && c.toNat ≤ 0x200A) ||
  c.toNat = 0x2028 || c.toNat = 0x2029 || c.toNat = 0x202F || c.toNat = 0x205F ||
  c.toNat = 0x3000 || c.toNat = 0xFEFF

/-- jsTrim models `String.prototype.trim`: drop whitespace from both ends. -/
def jsTrim (s : String) : String :=
  String.mk (((s.data.dropWhile isJSWhitespaceChar).reverse.dropWhile
    isJSWhitespaceChar).reverse)

/-- isTagStartChar decides the regex class `[A-Za-z_]`. -/
def isTagStartChar (c : Char) : Bool :=
  (65 ≤ c.toNat && c.toNat ≤ 90) || (97 ≤ c.toNat && c.toNat ≤ 122) || c.toNat = 95

/-- isTagRestChar decides the regex class `[A-Za-z0-9_-]`. -/
def isTagRestChar (c : Char) : Bool :=
  isTagStartChar c || (48 ≤ c.toNat && c.toNat ≤ 57) || c.toNat = 45

/-- matchesTagRegex models `/^[A-Za-z_][A-Za-z0-9_-]*$/.test(name)`. -/
def matchesTagRegex (s : String) : Bool :=
  match s.data with
  | [] => false
  | c :: rest => isTagStartChar c && rest.all isTagRestChar

/-- tagEmptyMsg is the message of the empty-tag-name error. -/
def tagEmptyMsg : String := "Tag name cannot be empty"

/-- tagBoundaryWsMsg is the message of the leading/trailing-whitespace error. -/
def tagBoundaryWsMsg (name : String) : String :=
  "Tag name cannot have leading or trailing whitespace: \"" ++ name ++ "\""

/-- tagOnlyWsMsg is the message of the whitespace-only tag-name error. -/
def tagOnlyWsMsg : String := "Tag name cannot be only whitespace"

/-- tagFormatMsg is the message of the tag-name-format error. -/
def tagFormatMsg (name : String) : String :=
  "Tag name must start with a letter or underscore and contain only " ++
    "alphanumeric characters, underscores, or hyphens: \"" ++ name ++ "\""

/-- validateTagName models `validateTagName` from validate.ts (minus the
`typeof` guard, which cannot fire on a typed string input). -/
def validateTagName (name : String) : Except String Unit :=
  if name.length = 0 then .error tagEmptyMsg
  else if jsTrim name ≠ name then .error (tagBoundaryWsMsg name)
  else if (jsTrim name).length = 0 then .error tagOnlyWsMsg
  else if !matchesTagRegex name then .error (tagFormatMsg name)
  else .ok ()

/-- opCountMsg is the message of the argument-count error. -/
def opCountMsg (o : OpType) (n : Nat) : String :=
  "Operation " ++ o.lower ++ " requires at least 2 arguments, got: " ++ jsNatToString n

/-- divZeroMsg is the message of the literal-zero-divisor error; `pos` is
the reported 1-based position. -/
def divZeroMsg (pos : Nat) : String :=
  "Division by zero: divisor at position " ++ jsNatToString pos ++ " is 0"

/-- isLiteralZero models `arg.kind === "amount" && arg.value === 0`. -/
def isLiteralZero : PriceExpr → Bool
  | .amount v => v.isZero
  | _ => false

/-- checkDivZero models the divisor scan of `validateOp`:
`for (let i = 1; i < args.length; i++) ...` over `args.drop 1` with `i`
the index of the head of the remaining list. -/
def checkDivZero : Nat → List PriceExpr → Except String Unit
  | _, [] => .ok ()
  | i, a :: rest =>
    if isLiteralZero a then .error (divZeroMsg (i + 1))
    else checkDivZero (i + 1) rest

mutual
/-- validateExpr models `validateExpr` from validate.ts: dispatch on kind;
the op case carries the body of `validateOp` inline (see `validateOp` and
`validateExpr_op` below): argument-count check, then recursive validation
of every argument in order, then (for DIV) the divisor scan. -/
def validateExpr : PriceExpr → Except String Unit
  | .amount v => validateAmount v
  | .tag name => validateTagName name
  | .op o args =>
    if args.length < 2 then .error (opCountMsg o args.length)
    else
      match validateArgs args with
      | .error m => .error m
      | .ok () => if o = .DIV then checkDivZero 1 (args.drop 1) else .ok ()

/-- validateArgs models the loop `for (const arg of args) validateExpr(arg)`:
left to right, stopping at the first error. -/
def validateArgs : List PriceExpr → Except String Unit
  | [] => .ok ()
  | a :: rest =>
    match validateExpr a with
    | .error m => .error m
    | .ok () => validateArgs rest
end

/-- validateOp models `validateOp` from validate.ts: argument-count check,
then recursive validation of every argument in order, then (for DIV) the
literal-zero divisor scan. -/
def validateOp (o : OpType) (args : List PriceExpr) : Except String Unit :=
  if args.length < 2 then .error (opCountMsg o args.length)
  else
    match validateArgs args with
    | .error m => .error m
    | .ok () => if o = .DIV then checkDivZero 1 (args.drop 1) else .ok ()

/-- isValidExpr models `isValidExpr`: catch the validation error and
return a Boolean. -/
def isValidExpr (e : PriceExpr) : Bool :=
  match validateExpr e with
  | .ok _ => true
  | .error _ => false

/-- tag models the builder `tag(name)`: assemble the node, validate,
return it on success. -/
def tag (name : String) : Except String PriceExpr :=
  let expr := PriceExpr.tag name
  (validateExpr expr).map fun _ => expr

/-- amount models the builder `amount(cents)`. -/
def amount (cents : JSNumber) : Except String PriceExpr :=
  let expr := PriceExpr.amount cents
  (validateExpr expr).map fun _ => expr

/-- add models the builder `add(...args)`. -/
def add (args : List ExprInput) : Except String PriceExpr :=
  let expr := PriceExpr.op .ADD (args.map toExpr)
  (validateExpr expr).map fun _ => expr

/-- sub models the builder `sub(...args)`. -/
def sub (args : List ExprInput) : Except String PriceExpr :=
  let expr := PriceExpr.op .SUB (args.map toExpr)
  (validateExpr expr).map fun _ => expr

/-- mul models the builder `mul(...args)`. -/
def mul (args : List ExprInput) : Except String PriceExpr :=
  let expr := PriceExpr.op .MUL (args.map toExpr)
  (validateExpr expr).map fun _ => expr

/-- div models the builder `div(...args)`. -/
def div (args : List ExprInput) : Except String PriceExpr :=
  let expr := PriceExpr.op .DIV (args.map toExpr)
  (validateExpr expr).map fun _ => expr

/-- firstZeroFrom finds the index (counting from `i` for the head) of the
first literal-zero amount in a list, as statement vocabulary for the
divisor-scan claims. -/
def firstZeroFrom : Nat → List PriceExpr → Option Nat
  | _, [] => none
  | i, a :: rest => if isLiteralZero a then some i else firstZeroFrom (i + 1) rest

/-- firstZeroDivisorIdx gives the index (1-based over the argument array,
i.e. skipping the dividend at index 0) of the first literal-zero divisor. -/
def firstZeroDivisorIdx (args : List PriceExpr) : Option Nat :=
  firstZeroFrom 1 (args.drop 1)

/-- isDigitChar decides the decimal digit class `[0-9]`. -/
def isDigitChar (c : Char) : Bool := 48 ≤ c.toNat && c.toNat ≤ 57

/-- digitVal is the numeric value of a decimal digit character. -/
def digitVal (c : Char) : Nat := c.toNat - 48

/-- tokenChar decides the character class that canonical serializations of
valid expressions stay inside: tag-name characters (letters, digits,
underscore, hyphen — the hyphen also covering minus signs, the letters
also covering the `e` of exponential amounts), parentheses, comma, single
quote, and the plus sign and period of exponential amount renderings. -/
def tokenChar (c : Char) : Bool :=
  isTagRestChar c || c.toNat = 40 || c.toNat = 41 || c.toNat = 44 || c.toNat = 39 ||
    c.toNat = 43 || c.toNat = 46

/-- parseDigits consumes a maximal run of decimal digits, folding them
into an accumulator. -/
def parseDigits : Nat → List Char → Nat × List Char
  | acc, [] => (acc, [])
  | acc, c :: cs =>
    if isDigitChar c then parseDigits (acc * 10 + digitVal c) cs
    else (acc, c :: cs)

/-- parseNumToken parses one serialized JS number token (of the forms the
serializer emits for integer amounts): a maximal digit run, optionally
followed by `.`-separated fraction digits and an `e+` exponent; the value
is reconstructed as mantissa times a power of ten. -/
def parseNumToken (cs : List Char) : Option (Nat × List Char) :=
  match parseDigits 0 cs with
  | (v1, r) =>
    match r with
    | [] => some (v1, [])
    | c :: r2 =>
      if c = '.' then
        match r2.dropWhile isDigitChar with
        | 'e' :: '+' :: r4 =>
          match parseDigits 0 r4 with
          | (p, r5) =>
            some ((List.foldl (fun a ch => a * 10 + digitVal ch) v1
              (r2.takeWhile isDigitChar)) * 10 ^ (p - (r2.takeWhile isDigitChar).length), r5)
        | _ => none
      else if c = 'e' then
        match r2 with
        | '+' :: r4 =>
          match parseDigits 0 r4 with
          | (p, r5) => some (v1 * 10 ^ p, r5)
        | _ => none
      else some (v1, c :: r2)

mutual
/-- parseExprAux is a fuel-indexed recursive-descent parser for the
canonical serialization grammar, used to prove that serialization is
injective on valid expressions. -/
def parseExprAux : Nat → List Char → Option (PriceExpr × List Char)
  | 0, _ => none
  | fuel + 1, cs =>
    match cs with
    | [] => none
    | c :: rest =>
      if c = '-' then
        match rest with
        | [] => none
        | d :: _ =>
          if isDigitChar d then
            match parseNumToken rest with
            | some p => some (.amount (.int (-(p.1 : Int))), p.2)
            | none => none
          else none
      else if isDigitChar c then
        match parseNumToken (c :: rest) with
        | some p => some (.amount (.int (p.1 : Int)), p.2)
        | none => none
      else if cs.take 5 = ['t', 'a', 'g', '(', squote] then
        let body := cs.drop 5
        let name := body.takeWhile (fun ch => ch ≠ squote)
        match body.dropWhile (fun ch => ch ≠ squote) with
        | _ :: ')' :: r => some (.tag (String.mk name), r)
        | _ => none
      else if cs.take 4 = ['a', 'd', 'd', '('] then
        (parseArgsAux fuel (cs.drop 4)).map (fun p => (.op .ADD p.1, p.2))
      else if cs.take 4 = ['s', 'u', 'b', '('] then
        (parseArgsAux fuel (cs.drop 4)).map (fun p => (.op .SUB p.1, p.2))
      else if cs.take 4 = ['m', 'u', 'l', '('] then
        (parseArgsAux fuel (cs.drop 4)).map (fun p => (.op .MUL p.1, p.2))
      else if cs.take 4 = ['d', 'i', 'v', '('] then
        (parseArgsAux fuel (cs.drop 4)).map (fun p => (.op .DIV p.1, p.2))
      else none

/-- parseArgsAux parses a nonempty comma-separated argument list followed
by a closing parenthesis, consuming it. -/
def parseArgsAux : Nat → List Char → Option (List PriceExpr × List Char)
  | 0, _ => none
  | fuel + 1, cs =>
    match parseExprAux fuel cs with
    | none => none
    | some (e, r) =>
      match r with
      | ',' :: r2 => (parseArgsAux fuel r2).map (fun p => (e :: p.1, p.2))
      | ')' :: r2 => some ([e], r2)
      | _ => none
end

mutual
/-- exprFuel is enough parser fuel for one expression's serialization. -/
def exprFuel : PriceExpr → Nat
  | .amount _ => 1
  | .tag _ => 1
  | .op _ args => 1 + argsFuel args

/-- argsFuel is enough parser fuel for an argument list's serialization. -/
def argsFuel : List PriceExpr → Nat
  | [] => 1
  | e :: rest => 1 + exprFuel e + argsFuel rest
end

/-- stopperB holds for a continuation that cannot extend a just-parsed
expression: an empty remainder or one that starts with none of a digit, a
period, or an `e` (the characters that can continue a number token). -/
def stopperB : List Char → Bool
  | [] => true
  | c :: _ => !(isDigitChar c || c = '.' || c = 'e')

/-- nonDigitHead holds for a continuation that cannot extend a digit run. -/
def nonDigitHead : List Char → Bool
  | [] => true
  | c :: _ => !isDigitChar c

/-- joinWithComma is the specification-side rendering of ".join(&#44;)":
the pieces in order, separated by single commas. -/
def joinWithComma : List String → String
  | [] => ""
  | [s] => s
  | s :: s2 :: rest => s ++ "," ++ joinWithComma (s2 :: rest)

/-- stripNlSp deletes every newline and every space character of a string,
keeping everything else. -/
def stripNlSp (s : String) : String :=
  String.mk (s.data.filter (fun c => !(c = '\n' || c = ' ')))

/-- isIntLiteral decides the `amount` production of the canonical grammar:
an optional minus sign followed by at least one decimal digit. -/
def isIntLiteral (s : String) : Bool :=
  match s.data with
  | [] => false
  | c :: rest =>
    if c = '-' then !rest.isEmpty && rest.all isDigitChar
    else isDigitChar c && rest.all isDigitChar

/-- char_toNat_inj: two characters with the same code point are equal. -/
theorem char_toNat_inj {a b : Char} (h : a.toNat = b.toNat) : a = b :=
  Char.ext (UInt32.ext h)

/-- digitChar_isDigit: decimal digit characters lie in the digit class. -/
theorem digitChar_isDigit (d : Nat) : isDigitChar (digitChar d) = true :=
  match d with
  | 0 => rfl
  | 1 => rfl
  | 2 => rfl
  | 3 => rfl
  | 4 => rfl
  | 5 => rfl
  | 6 => rfl
  | 7 => rfl
  | 8 => rfl
  | _ + 9 => rfl

/-- digitVal_digitChar: `digitVal` inverts `digitChar` below 10. -/
theorem digitVal_digitChar (d : Nat) (h : d < 10) : digitVal (digitChar d) = d := by
  interval_cases d <;> rfl

/-- natDigitsAux_fuel_irrel: any fuel above the argument yields the same
digit string. -/
theorem natDigitsAux_fuel_irrel (n : Nat) : ∀ f g, n < f → n < g →
    natDigitsAux n f = natDigitsAux n g := by
  induction n using Nat.strong_induction_on with
  | _ n ih =>
    intro f g hf hg
    match f, g with
    | f + 1, g + 1 =>
      simp only [natDigitsAux]
      by_cases h : n < 10
      · simp [h]
      · simp only [if_neg h]
        have hdiv : n / 10 < n := Nat.div_lt_self (by omega) (by omega)
        rw [ih (n / 10) hdiv f g (by omega) (by omega)]

/-- natDigitChars_lt: single-digit rendering. -/
theorem natDigitChars_lt (n : Nat) (h : n < 10) :
    natDigitChars n = [digitChar n] := by
  simp [natDigitChars, natDigitsAux, h]

/-- natDigitChars_ge: multi-digit rendering peels off the last digit. -/
theorem natDigitChars_ge (n : Nat) (h : 10 ≤ n) :
    natDigitChars n = natDigitChars (n / 10) ++ [digitChar (n % 10)] := by
  have h1 : natDigitsAux n (n + 1) = natDigitsAux (n / 10) n ++ [digitChar (n % 10)] := by
    conv_lhs => rw [natDigitsAux]
    rw [if_neg (by omega)]
  rw [natDigitChars, natDigitChars, h1,
    natDigitsAux_fuel_irrel (n / 10) n (n / 10 + 1) (by omega) (by omega)]

/-- natDigitChars_ne_nil: the decimal rendering is never empty. -/
theorem natDigitChars_ne_nil (n : Nat) : natDigitChars n ≠ [] := by
  by_cases h : n < 10
  · rw [natDigitChars_lt n h]; simp
  · rw [natDigitChars_ge n (by omega)]; simp

/-- natDigitChars_all_digit: every character of the rendering is a digit. -/
theorem natDigitChars_all_digit (n : Nat) : ∀ c ∈ natDigitChars n, isDigitChar c = true := by
  induction n using Nat.strong_induction_on with
  | _ n ih =>
    by_cases h : n < 10
    · rw [natDigitChars_lt n h]
      intro c hc
      rw [List.mem_singleton] at hc
      rw [hc]; exact digitChar_isDigit n
    · rw [natDigitChars_ge n (by omega)]
      intro c hc
      rcases List.mem_append.mp hc with h1 | h2
      · exact ih (n / 10) (Nat.div_lt_self (by omega) (by omega)) c h1
      · rw [List.mem_singleton] at h2
        rw [h2]; exact digitChar_isDigit (n % 10)

/-- foldl_natDigitChars: folding the digits of `n` onto an accumulator. -/
theorem foldl_natDigitChars (n : Nat) : ∀ acc,
    List.foldl (fun a c => a * 10 + digitVal c) acc (natDigitChars n) =
      acc * 10 ^ (natDigitChars n).length + n := by
  induction n using Nat.strong_induction_on with
  | _ n ih =>
    intro acc
    by_cases h : n < 10
    · rw [natDigitChars_lt n h]
      simp [List.foldl, digitVal_digitChar n h]
    · rw [natDigitChars_ge n (by omega)]
      rw [List.foldl_append]
      rw [ih (n / 10) (Nat.div_lt_self (by omega) (by omega)) acc]
      simp only [List.foldl, List.length_append, List.length_singleton]
      rw [digitVal_digitChar (n % 10) (by omega)]
      rw [pow_succ, ← mul_assoc]
      generalize natDigitChars (n / 10) = l
      generalize (10 : Nat) ^ l.length = P
      omega

/-- parseDigits_append: `parseDigits` consumes exactly a leading digit run
when the remainder cannot extend it. -/
theorem parseDigits_append (l : List Char) : ∀ acc rest,
    (∀ c ∈ l, isDigitChar c = true) → nonDigitHead rest = true →
    parseDigits acc (l ++ rest) =
      (List.foldl (fun a c => a * 10 + digitVal c) acc l, rest) := by
  induction l with
  | nil =>
    intro acc rest _ hstop
    match rest with
    | [] => rfl
    | c :: cs =>
      simp only [nonDigitHead, Bool.not_eq_true'] at hstop
      simp [parseDigits, hstop]
  | cons d ds ih =>
    intro acc rest hdig hstop
    have hd : isDigitChar d = true := hdig d (by simp)
    simp only [List.cons_append, parseDigits, hd, if_true, List.append_eq]
    rw [ih (acc * 10 + digitVal d) rest (fun c hc => hdig c (by simp [hc])) hstop]
    simp [List.foldl]

/-- parseDigits_natDigitChars: parsing back the rendering of `n` yields `n`. -/
theorem parseDigits_natDigitChars (n : Nat) (rest : List Char)
    (hstop : nonDigitHead rest = true) :
    parseDigits 0 (natDigitChars n ++ rest) = (n, rest) := by
  rw [parseDigits_append (natDigitChars n) 0 rest (natDigitChars_all_digit n) hstop]
  rw [foldl_natDigitChars n 0]
  simp

/-- stopperB_nonDigit: a full stopper in particular cannot extend a digit
run. -/
theorem stopperB_nonDigit {l : List Char} (h : stopperB l = true) :
    nonDigitHead l = true := by
  match l with
  | [] => rfl
  | c :: cs =>
    simp only [stopperB, Bool.not_eq_true', Bool.or_eq_false_iff] at h
    simp [nonDigitHead, h.1.1]

/-- stopperB_head: the facts carried by a nonempty stopper. -/
theorem stopperB_head {c : Char} {cs : List Char} (h : stopperB (c :: cs) = true) :
    isDigitChar c = false ∧ ¬ (c = '.') ∧ ¬ (c = 'e') := by
  simp only [stopperB, Bool.not_eq_true', Bool.or_eq_false_iff,
    decide_eq_false_iff_not] at h
  exact ⟨h.1.1, h.1.2, h.2⟩

/-- parseDigits_single: a single digit followed by a non-digit parses to
its value. -/
theorem parseDigits_single (d : Char) (hd : isDigitChar d = true) (tail : List Char)
    (ht : nonDigitHead tail = true) :
    parseDigits 0 (d :: tail) = (digitVal d, tail) := by
  have h := parseDigits_append [d] 0 tail
    (by intro c hc; rw [List.mem_singleton] at hc; rw [hc]; exact hd) ht
  simpa using h

/-- string_mk_data: rebuilding a string from its characters is the identity. -/
theorem string_mk_data (s : String) : String.mk s.data = s := rfl

/-- tokenChar_not_ws: serialization-token characters are never JS whitespace. -/
theorem tokenChar_not_ws {c : Char} (h : tokenChar c = true) :
    isJSWhitespaceChar c = false := by
  simp only [tokenChar, isTagRestChar, isTagStartChar, Bool.or_eq_true,
    Bool.and_eq_true, decide_eq_true_eq] at h
  simp only [isJSWhitespaceChar, Bool.or_eq_false_iff, Bool.and_eq_false_iff,
    decide_eq_false_iff_not, ← Nat.not_le, Decidable.not_not]
  omega

/-- tagRest_tokenChar: tag-name characters are token characters. -/
theorem tagRest_tokenChar {c : Char} (h : isTagRestChar c = true) :
    tokenChar c = true := by
  simp [tokenChar, h]

/-- digit_tokenChar: digit characters are token characters. -/
theorem digit_tokenChar {c : Char} (h : isDigitChar c = true) :
    tokenChar c = true := by
  simp only [isDigitChar, Bool.and_eq_true, decide_eq_true_eq] at h
  simp only [tokenChar, isTagRestChar, isTagStartChar, Bool.or_eq_true,
    Bool.and_eq_true, decide_eq_true_eq]
  omega

/-- tagRest_ne_squote: tag-name characters are never the single quote. -/
theorem tagRest_ne_squote {c : Char} (h : isTagRestChar c = true) : c ≠ squote := by
  intro hc
  subst hc
  exact absurd h (by decide)

/-- digit_ne_minus: a digit character is not the minus sign. -/
theorem digit_ne_minus {c : Char} (h : isDigitChar c = true) : c ≠ '-' := by
  intro hc
  subst hc
  exact absurd h (by decide)

/-- flatten_map_singleton: mapping each element to a singleton block and
flattening is the identity when no element is a quote. -/
theorem flatten_map_singleton (l : List Char) (h : ∀ c ∈ l, c ≠ squote) :
    ((l.map (fun c => if c = squote then ['\\', squote] else [c])).flatten) = l := by
  induction l with
  | nil => rfl
  | cons c cs ih =>
    simp only [List.map_cons, List.flatten_cons, if_neg (h c (by simp))]
    rw [ih (fun x hx => h x (by simp [hx]))]
    rfl

/-- escapeQuotes_id: escaping is the identity on quote-free names. -/
theorem escapeQuotes_id (s : String) (h : ∀ c ∈ s.data, c ≠ squote) :
    escapeQuotes s = s := by
  rw [escapeQuotes, flatten_map_singleton s.data h, string_mk_data]

/-- regex_chars: a name matching the tag regex has a tag-start head and
tag-rest tail, in particular all its characters are tag-rest characters. -/
theorem regex_chars {s : String} (h : matchesTagRegex s = true) :
    ∀ c ∈ s.data, isTagRestChar c = true := by
  rw [matchesTagRegex] at h
  match hd : s.data with
  | [] => rw [hd] at h; simp at h
  | c0 :: rest =>
    rw [hd] at h
    simp only [Bool.and_eq_true, List.all_eq_true] at h
    intro c hc
    rcases List.mem_cons.mp hc with h1 | h2
    · rw [h1]; simp [isTagRestChar, h.1]
    · exact h.2 c h2

/-- validateExpr_op: the op case of `validateExpr` unfolds to `validateOp`. -/
theorem validateExpr_op (o : OpType) (args : List PriceExpr) :
    validateExpr (.op o args) = validateOp o args := rfl

/-- validateArgs_ok_iff: the argument loop succeeds iff every argument
validates. -/
theorem validateArgs_ok_iff (l : List PriceExpr) :
    validateArgs l = .ok () ↔ ∀ a ∈ l, validateExpr a = .ok () := by
  induction l with
  | nil => simp [validateArgs]
  | cons a rest ih =>
    rw [validateArgs]
    cases hva : validateExpr a with
    | error m => simp [hva]
    | ok u =>
      cases u
      simp only [List.mem_cons, ih]
      constructor
      · intro hr x hx
        rcases hx with h1 | h2
        · rw [h1]; exact hva
        · exact hr x h2
      · intro hall
        exact fun x hx => hall x (Or.inr hx)

/-- validateArgs_append_error: the loop reports the first failing argument. -/
theorem validateArgs_append_error (pre : List PriceExpr) (bad : PriceExpr)
    (post : List PriceExpr) (m : String)
    (hpre : ∀ a ∈ pre, validateExpr a = .ok ()) (hbad : validateExpr bad = .error m) :
    validateArgs (pre ++ bad :: post) = .error m := by
  induction pre with
  | nil => rw [List.nil_append, validateArgs, hbad]
  | cons p ps ih =>
    rw [List.cons_append, validateArgs, hpre p (by simp)]
    exact ih (fun a ha => hpre a (by simp [ha]))

/-- checkDivZero_eq: the divisor scan reports the first literal zero,
with its 1-based position. -/
theorem checkDivZero_eq (l : List PriceExpr) : ∀ i,
    checkDivZero i l = (match firstZeroFrom i l with
      | some j => .error (divZeroMsg (j + 1))
      | none => .ok ()) := by
  induction l with
  | nil => intro i; rfl
  | cons a rest ih =>
    intro i
    rw [checkDivZero, firstZeroFrom]
    by_cases hz : isLiteralZero a
    · simp [hz]
    · simp only [hz, Bool.false_eq_true, if_false]
      exact ih (i + 1)

/-- isValid_iff_ok: the Boolean check reflects the validator. -/
theorem isValid_iff_ok (e : PriceExpr) :
    isValidExpr e = true ↔ validateExpr e = .ok () := by
  rw [isValidExpr]
  cases hv : validateExpr e with
  | error m => simp
  | ok u => cases u; simp

/-- valid_amount_inv: a valid amount is a finite integer. -/
theorem valid_amount_inv {v : JSNumber} (h : validateExpr (.amount v) = .ok ()) :
    ∃ n, v = .int n := by
  cases v with
  | int n => exact ⟨n, rfl⟩
  | nonIntFinite r =>
    rw [validateExpr, validateAmount] at h
    simp [JSNumber.isFinite, JSNumber.isInteger] at h
  | nan =>
    rw [validateExpr, validateAmount] at h
    simp [JSNumber.isFinite] at h
  | inf b =>
    rw [validateExpr, validateAmount] at h
    simp [JSNumber.isFinite] at h

/-- valid_tag_inv: a valid tag name matches the name regex. -/
theorem valid_tag_inv {s : String} (h : validateExpr (.tag s) = .ok ()) :
    matchesTagRegex s = true := by
  rw [validateExpr, validateTagName] at h
  by_cases h1 : s.length = 0
  · simp [h1] at h
  · rw [if_neg h1] at h
    by_cases h2 : jsTrim s ≠ s
    · simp [h2] at h
    · rw [if_neg h2] at h
      by_cases h3 : (jsTrim s).length = 0
      · simp [h3] at h
      · rw [if_neg h3] at h
        by_cases h4 : matchesTagRegex s
        · exact h4
        · simp [h4] at h

/-- valid_op_inv: a valid op node has at least two arguments, all valid. -/
theorem valid_op_inv {o : OpType} {args : List PriceExpr}
    (h : validateExpr (.op o args) = .ok ()) :
    2 ≤ args.length ∧ ∀ a ∈ args, validateExpr a = .ok () := by
  rw [show validateExpr (.op o args) = validateOp o args from rfl, validateOp.eq_def] at h
  by_cases hlen : args.length < 2
  · simp [hlen] at h
  · rw [if_neg hlen] at h
    refine ⟨by omega, ?_⟩
    cases hva : validateArgs args with
    | error m => rw [hva] at h; simp at h
    | ok u =>
      cases u
      exact (validateArgs_ok_iff args).mp hva

/-- exprFuel_pos: fuel bounds are positive. -/
theorem exprFuel_pos (e : PriceExpr) : 1 ≤ exprFuel e := by
  cases e <;> simp [exprFuel]

/-- argsFuel_pos: list fuel bounds are positive. -/
theorem argsFuel_pos (l : List PriceExpr) : 1 ≤ argsFuel l := by
  cases l with
  | nil => simp [argsFuel]
  | cons e rest => rw [argsFuel]; omega

/-- all_tokenChar: turn a computed `List.all` fact into memberwise facts. -/
theorem all_tokenChar {l : List Char} (h : l.all tokenChar = true) :
    ∀ c ∈ l, tokenChar c = true :=
  List.all_eq_true.mp h

/-- mem_data_append: character membership distributes over appending. -/
theorem mem_data_append {s t : String} {c : Char} :
    c ∈ (s ++ t).data ↔ c ∈ s.data ∨ c ∈ t.data := by
  rw [String.data_append, List.mem_append]

/-- mem_takeWhile_pred: every element kept by `takeWhile` satisfies the
predicate. -/
theorem mem_takeWhile_pred (p : Char → Bool) (l : List Char) :
    ∀ c ∈ l.takeWhile p, p c = true := by
  induction l with
  | nil => intro c hc; exact absurd hc (List.not_mem_nil c)
  | cons a l ih =>
    intro c hc
    rw [List.takeWhile_cons] at hc
    by_cases hp : p a = true
    · rw [if_pos hp] at hc
      rcases List.mem_cons.mp hc with h1 | h2
      · rw [h1]; exact hp
      · exact ih c h2
    · rw [if_neg hp] at hc
      exact absurd hc (List.not_mem_nil c)

/-- stripTrailingZeros_sub: stripping only removes elements. -/
theorem stripTrailingZeros_sub (l : List Char) :
    ∀ c ∈ stripTrailingZeros l, c ∈ l := by
  intro c hc
  rw [stripTrailingZeros, List.mem_reverse] at hc
  have := (List.dropWhile_sublist (fun ch => ch = '0') (l := l.reverse)).subset hc
  rwa [List.mem_reverse] at this

/-- stripTrailingZeros_length_le: stripping cannot lengthen the list. -/
theorem stripTrailingZeros_length_le (l : List Char) :
    (stripTrailingZeros l).length ≤ l.length := by
  rw [stripTrailingZeros, List.length_reverse]
  calc (l.reverse.dropWhile (fun c => c = '0')).length
      ≤ l.reverse.length := (List.dropWhile_sublist _).length_le
    _ = l.length := List.length_reverse l

/-- stripTrailingZeros_decomp: a digit string is its stripped form plus
the removed run of zeros. -/
theorem stripTrailingZeros_decomp (l : List Char) :
    l = stripTrailingZeros l ++
      List.replicate (l.length - (stripTrailingZeros l).length) '0' := by
  have hsplit : l.reverse.takeWhile (fun c => c = '0') ++
      l.reverse.dropWhile (fun c => c = '0') = l.reverse :=
    List.takeWhile_append_dropWhile _ _
  have htake : l.reverse.takeWhile (fun c => c = '0') =
      List.replicate (l.reverse.takeWhile (fun c => c = '0')).length '0' := by
    apply List.eq_replicate_of_mem
    intro b hb
    have := mem_takeWhile_pred (fun c => c = '0') l.reverse b hb
    simpa using this
  have hlen : (l.reverse.takeWhile (fun c => c = '0')).length =
      l.length - (stripTrailingZeros l).length := by
    have h1 := congrArg List.length hsplit
    rw [List.length_append, List.length_reverse] at h1
    have h2 : (stripTrailingZeros l).length =
        (l.reverse.dropWhile (fun c => c = '0')).length := by
      rw [stripTrailingZeros, List.length_reverse]
    omega
  calc l = l.reverse.reverse := (List.reverse_reverse l).symm
    _ = (l.reverse.takeWhile (fun c => c = '0') ++
        l.reverse.dropWhile (fun c => c = '0')).reverse := by rw [hsplit]
    _ = (l.reverse.dropWhile (fun c => c = '0')).reverse ++
        (l.reverse.takeWhile (fun c => c = '0')).reverse := List.reverse_append _ _
    _ = stripTrailingZeros l ++ (l.reverse.takeWhile (fun c => c = '0')).reverse := rfl
    _ = stripTrailingZeros l ++
        List.replicate (l.length - (stripTrailingZeros l).length) '0' := by
      rw [htake, List.reverse_replicate, ← hlen, htake, List.length_replicate]

/-- foldl_replicate_zero: folding a run of zero digits multiplies the
accumulator by the matching power of ten. -/
theorem foldl_replicate_zero (j : Nat) : ∀ v : Nat,
    List.foldl (fun a c => a * 10 + digitVal c) v (List.replicate j '0') = v * 10 ^ j := by
  induction j with
  | zero => intro v; simp
  | succ j ih =>
    intro v
    rw [List.replicate_succ, List.foldl_cons, ih]
    have hz : digitVal '0' = 0 := rfl
    rw [hz]
    ring

/-- strip_val: the stripped significant digits times the matching power of
ten recover the value. -/
theorem strip_val (m : Nat) :
    List.foldl (fun a c => a * 10 + digitVal c) 0 (stripTrailingZeros (natDigitChars m)) *
      10 ^ ((natDigitChars m).length - (stripTrailingZeros (natDigitChars m)).length) =
      m := by
  have hfold : List.foldl (fun a c => a * 10 + digitVal c) 0 (natDigitChars m) = m := by
    have := foldl_natDigitChars m 0
    simpa using this
  conv_rhs => rw [← hfold]
  conv_rhs => rw [stripTrailingZeros_decomp (natDigitChars m)]
  rw [List.foldl_append, foldl_replicate_zero]

/-- strip_ne_nil: a positive value keeps at least one significant digit. -/
theorem strip_ne_nil (m : Nat) (hm : m ≠ 0) :
    stripTrailingZeros (natDigitChars m) ≠ [] := by
  intro h
  have := strip_val m
  rw [h] at this
  simp at this
  omega

/-- natDigitChars_length_le: a value below `10 ^ k` has at most `k`
digits (for `k ≥ 1`). -/
theorem natDigitChars_length_le : ∀ n k, 1 ≤ k → n < 10 ^ k →
    (natDigitChars n).length ≤ k := by
  intro n
  induction n using Nat.strong_induction_on with
  | _ n ih =>
    intro k hk h
    by_cases h10 : n < 10
    · rw [natDigitChars_lt n h10]
      simpa using hk
    · rw [natDigitChars_ge n (by omega), List.length_append, List.length_singleton]
      have hdiv : n / 10 < n := Nat.div_lt_self (by omega) (by omega)
      have hk2 : 2 ≤ k := by
        by_contra hc
        have hk1 : k = 1 := by omega
        rw [hk1, pow_one] at h
        omega
      have hpow : 10 ^ k = 10 ^ (k - 1) * 10 := by
        rw [← pow_succ]
        congr 1
        omega
      have hrec : n / 10 < 10 ^ (k - 1) := by
        rw [hpow] at h
        omega
      have := ih (n / 10) hdiv (k - 1) (by omega) hrec
      omega

/-- jsNat_plain: below 22 digits the rendering is the plain decimal
string. -/
theorem jsNat_plain (m : Nat) (h : (natDigitChars m).length ≤ 21) :
    (jsNatToString m).data = natDigitChars m := by
  rw [jsNatToString, if_pos h]

/-- jsNat_exp_ne_zero: a value that renders exponentially is nonzero. -/
theorem jsNat_exp_ne_zero (m : Nat) (h : ¬ (natDigitChars m).length ≤ 21) : m ≠ 0 := by
  intro h0
  apply h
  rw [h0, natDigitChars_lt 0 (by omega)]
  simp

/-- jsNat_exp_data_one: exponential rendering with a single significant
digit. -/
theorem jsNat_exp_data_one (m : Nat) (d : Char)
    (hlen : ¬ (natDigitChars m).length ≤ 21)
    (hs : stripTrailingZeros (natDigitChars m) = [d]) :
    (jsNatToString m).data =
      d :: 'e' :: '+' :: natDigitChars ((natDigitChars m).length - 1) := by
  rw [jsNatToString, if_neg hlen, hs]
  simp only [List.isEmpty_nil, if_true]
  simp [String.data_append]

/-- jsNat_exp_data_many: exponential rendering with several significant
digits. -/
theorem jsNat_exp_data_many (m : Nat) (d : Char) (ds : List Char)
    (hlen : ¬ (natDigitChars m).length ≤ 21)
    (hs : stripTrailingZeros (natDigitChars m) = d :: ds) (hds : ds ≠ []) :
    (jsNatToString m).data =
      d :: '.' :: (ds ++ 'e' :: '+' :: natDigitChars ((natDigitChars m).length - 1)) := by
  rw [jsNatToString, if_neg hlen, hs]
  simp only [List.isEmpty_eq_true, hds, if_false]
  simp [String.data_append]

/-- jsNatToString_head: the rendering always begins with a digit. -/
theorem jsNatToString_head (m : Nat) :
    ∃ d ds, (jsNatToString m).data = d :: ds ∧ isDigitChar d = true := by
  by_cases hlen : (natDigitChars m).length ≤ 21
  · obtain ⟨d, ds, hd⟩ : ∃ d ds, natDigitChars m = d :: ds := by
      match hh : natDigitChars m with
      | [] => exact absurd hh (natDigitChars_ne_nil _)
      | d :: ds => exact ⟨d, ds, rfl⟩
    refine ⟨d, ds, by rw [jsNat_plain m hlen, hd], ?_⟩
    exact natDigitChars_all_digit m d (by rw [hd]; simp)
  · obtain ⟨d, ds, hs⟩ : ∃ d ds, stripTrailingZeros (natDigitChars m) = d :: ds := by
      match hh : stripTrailingZeros (natDigitChars m) with
      | [] => exact absurd hh (strip_ne_nil m (jsNat_exp_ne_zero m hlen))
      | d :: ds => exact ⟨d, ds, rfl⟩
    have hdig : isDigitChar d = true :=
      natDigitChars_all_digit m d (stripTrailingZeros_sub _ d (by rw [hs]; simp))
    by_cases hds : ds = []
    · subst hds
      exact ⟨d, _, jsNat_exp_data_one m d hlen hs, hdig⟩
    · exact ⟨d, _, jsNat_exp_data_many m d ds hlen hs hds, hdig⟩

/-- jsNatToString_tokens: both rendering regimes stay inside the token
character class. -/
theorem jsNatToString_tokens (m : Nat) :
    ∀ c ∈ (jsNatToString m).data, tokenChar c = true := by
  by_cases hlen : (natDigitChars m).length ≤ 21
  · rw [jsNat_plain m hlen]
    intro c hc
    exact digit_tokenChar (natDigitChars_all_digit m c hc)
  · obtain ⟨d, ds, hs⟩ : ∃ d ds, stripTrailingZeros (natDigitChars m) = d :: ds := by
      match hh : stripTrailingZeros (natDigitChars m) with
      | [] => exact absurd hh (strip_ne_nil m (jsNat_exp_ne_zero m hlen))
      | d :: ds => exact ⟨d, ds, rfl⟩
    have hdig : isDigitChar d = true :=
      natDigitChars_all_digit m d (stripTrailingZeros_sub _ d (by rw [hs]; simp))
    have hdsdig : ∀ c ∈ ds, isDigitChar c = true := by
      intro c hc
      exact natDigitChars_all_digit m c (stripTrailingZeros_sub _ c (by rw [hs]; simp [hc]))
    have hexp : ∀ c ∈ natDigitChars ((natDigitChars m).length - 1), tokenChar c = true := by
      intro c hc
      exact digit_tokenChar (natDigitChars_all_digit _ c hc)
    by_cases hds : ds = []
    · subst hds
      rw [jsNat_exp_data_one m d hlen hs]
      intro c hc
      rcases List.mem_cons.mp hc with h1 | hc
      · rw [h1]; exact digit_tokenChar hdig
      rcases List.mem_cons.mp hc with h1 | hc
      · rw [h1]; decide
      rcases List.mem_cons.mp hc with h1 | hc
      · rw [h1]; decide
      exact hexp c hc
    · rw [jsNat_exp_data_many m d ds hlen hs hds]
      intro c hc
      rcases List.mem_cons.mp hc with h1 | hc
      · rw [h1]; exact digit_tokenChar hdig
      rcases List.mem_cons.mp hc with h1 | hc
      · rw [h1]; decide
      rcases List.mem_append.mp hc with hc | hc
      · exact digit_tokenChar (hdsdig c hc)
      rcases List.mem_cons.mp hc with h1 | hc
      · rw [h1]; decide
      rcases List.mem_cons.mp hc with h1 | hc
      · rw [h1]; decide
      exact hexp c hc

/-- jsIntToString_tokens: the rendering of an integer uses only token
characters. -/
theorem jsIntToString_tokens (n : Int) :
    ∀ c ∈ (jsIntToString n).data, tokenChar c = true := by
  rw [jsIntToString]
  by_cases h : n < 0
  · rw [if_pos h]
    intro c hc
    rcases mem_data_append.mp hc with h1 | h2
    · exact all_tokenChar (by decide) c h1
    · exact jsNatToString_tokens n.natAbs c h2
  · rw [if_neg h]
    exact jsNatToString_tokens n.natAbs

/-- opLower_tokens: lower-cased operator names use only token characters. -/
theorem opLower_tokens (o : OpType) :
    ∀ c ∈ (OpType.lower o).data, tokenChar c = true := by
  cases o <;> decide

/-- serializeTag_tokens: the serialization of a regex-valid tag name uses
only token characters. -/
theorem serializeTag_tokens {name : String} (h : matchesTagRegex name = true) :
    ∀ c ∈ (serializeTag name).data, tokenChar c = true := by
  have hchars := regex_chars h
  rw [serializeTag, escapeQuotes_id name (fun c hc => tagRest_ne_squote (hchars c hc))]
  intro c hc
  rcases mem_data_append.mp hc with h1 | h2
  · rcases mem_data_append.mp h1 with h3 | h4
    · rcases mem_data_append.mp h3 with h5 | h6
      · rcases mem_data_append.mp h5 with h7 | h8
        · exact all_tokenChar (by decide) c h7
        · exact all_tokenChar (by decide) c h8
      · exact tagRest_tokenChar (hchars c h6)
    · exact all_tokenChar (by decide) c h4
  · exact all_tokenChar (by decide) c h2

/-- serializeTokens: the canonical serialization of a valid expression (or
of a list of valid arguments) stays inside the token character class. -/
theorem serializeTokens (N : Nat) :
    (∀ e, exprFuel e ≤ N → validateExpr e = .ok () →
      ∀ c ∈ (serializeExpr e).data, tokenChar c = true) ∧
    (∀ args, argsFuel args ≤ N → (∀ a ∈ args, validateExpr a = .ok ()) →
      ∀ c ∈ (serializeJoin args).data, tokenChar c = true) := by
  induction N with
  | zero =>
    constructor
    · intro e hf
      exact absurd hf (by have := exprFuel_pos e; omega)
    · intro args hf
      exact absurd hf (by have := argsFuel_pos args; omega)
  | succ N ih =>
    constructor
    · intro e hf hv c hc
      match e with
      | .amount v =>
        obtain ⟨n, rfl⟩ := valid_amount_inv hv
        rw [serializeExpr, serializeAmount, jsNumToString] at hc
        exact jsIntToString_tokens n c hc
      | .tag name =>
        rw [serializeExpr] at hc
        exact serializeTag_tokens (valid_tag_inv hv) c hc
      | .op o args =>
        obtain ⟨hlen, hargs⟩ := valid_op_inv hv
        rw [serializeExpr] at hc
        rcases mem_data_append.mp hc with h1 | h2
        · rcases mem_data_append.mp h1 with h3 | h4
          · rcases mem_data_append.mp h3 with h5 | h6
            · exact opLower_tokens o c h5
            · exact all_tokenChar (by decide) c h6
          · rw [exprFuel] at hf
            exact ih.2 args (by omega) hargs c h4
        · exact all_tokenChar (by decide) c h2
    · intro args hf hargs c hc
      match args with
      | [] =>
        rw [serializeJoin] at hc
        have hnil : ("" : String).data = [] := rfl
        rw [hnil] at hc
        exact absurd hc (List.not_mem_nil c)
      | [e] =>
        rw [serializeJoin] at hc
        rw [argsFuel, argsFuel] at hf
        exact ih.1 e (by omega) (hargs e (by simp)) c hc
      | e :: e2 :: rest =>
        rw [serializeJoin] at hc
        rw [argsFuel] at hf
        rcases mem_data_append.mp hc with h1 | h2
        · rcases mem_data_append.mp h1 with h3 | h4
          · exact ih.1 e (by omega) (hargs e (by simp)) c h3
          · exact all_tokenChar (by decide) c h4
        · exact ih.2 (e2 :: rest) (by omega) (fun a ha => hargs a (by simp [ha])) c h2

/-- serializeExpr_tokens: the canonical serialization of a valid
expression uses only token characters. -/
theorem serializeExpr_tokens {e : PriceExpr} (hv : validateExpr e = .ok ()) :
    ∀ c ∈ (serializeExpr e).data, tokenChar c = true :=
  (serializeTokens (exprFuel e)).1 e (le_refl _) hv

/-- stripPred is the character predicate kept by `stripNlSp`. -/
theorem stripPred_of_tokenChar {c : Char} (h : tokenChar c = true) :
    (!(c = '\n' || c = ' ')) = true := by
  by_cases h1 : c = '\n'
  · subst h1; exact absurd h (by decide)
  · by_cases h2 : c = ' '
    · subst h2; exact absurd h (by decide)
    · simp [h1, h2]

/-- stripNlSp_append: stripping distributes over appending. -/
theorem stripNlSp_append (a b : String) :
    stripNlSp (a ++ b) = stripNlSp a ++ stripNlSp b := by
  rw [stripNlSp, stripNlSp, stripNlSp, String.data_append, List.filter_append]
  rfl

/-- stripNlSp_tokens: stripping is the identity on token-only strings. -/
theorem stripNlSp_tokens {s : String} (h : ∀ c ∈ s.data, tokenChar c = true) :
    stripNlSp s = s := by
  rw [stripNlSp, List.filter_eq_self.mpr (fun c hc => stripPred_of_tokenChar (h c hc)),
    string_mk_data]

/-- stripNlSp_spaces: an indentation pad strips to nothing. -/
theorem stripNlSp_spaces (n : Nat) : stripNlSp (spacesRepeat n) = "" := by
  rw [stripNlSp, spacesRepeat]
  have : ∀ m : Nat, (List.replicate m ' ').filter (fun c => !(c = '\n' || c = ' ')) = [] := by
    intro m
    induction m with
    | zero => rfl
    | succ k ih => simp only [List.replicate_succ, List.filter_cons]; simp [ih]
  rw [this n]

/-- stripPretty: stripping every newline and space from the pretty-printed
form of a valid expression (or argument list) recovers the canonical
serialization. -/
theorem stripPretty (N : Nat) :
    (∀ e level k, exprFuel e ≤ N → validateExpr e = .ok () →
      stripNlSp (prettyPrintInternal e level k) = serializeExpr e) ∧
    (∀ args lvl k, argsFuel args ≤ N → (∀ a ∈ args, validateExpr a = .ok ()) →
      stripNlSp (prettyPrintArgs args lvl k) = serializeJoin args) := by
  induction N with
  | zero =>
    constructor
    · intro e _ _ hf
      exact absurd hf (by have := exprFuel_pos e; omega)
    · intro args _ _ hf
      exact absurd hf (by have := argsFuel_pos args; omega)
  | succ N ih =>
    constructor
    · intro e level k hf hv
      match e with
      | .amount v =>
        obtain ⟨n, rfl⟩ := valid_amount_inv hv
        rw [prettyPrintInternal, serializeExpr, serializeAmount]
        exact stripNlSp_tokens (fun c hc => jsIntToString_tokens n c hc)
      | .tag name =>
        have hchars := regex_chars (valid_tag_inv hv)
        rw [prettyPrintInternal, serializeExpr, serializeTag,
          escapeQuotes_id name (fun c hc => tagRest_ne_squote (hchars c hc))]
        refine stripNlSp_tokens ?_
        intro c hc
        rcases mem_data_append.mp hc with h1 | h2
        · rcases mem_data_append.mp h1 with h3 | h4
          · rcases mem_data_append.mp h3 with h5 | h6
            · rcases mem_data_append.mp h5 with h7 | h8
              · exact all_tokenChar (by decide) c h7
              · exact all_tokenChar (by decide) c h8
            · exact tagRest_tokenChar (hchars c h6)
          · exact all_tokenChar (by decide) c h4
        · exact all_tokenChar (by decide) c h2
      | .op o args =>
        obtain ⟨hlen, hargs⟩ := valid_op_inv hv
        have hne : ¬ args.length = 0 := by omega
        rw [prettyPrintInternal, if_neg hne, serializeExpr]
        rw [exprFuel] at hf
        simp only [stripNlSp_append]
        rw [stripNlSp_tokens (opLower_tokens o), ih.2 args (level + 1) k (by omega) hargs,
          stripNlSp_spaces]
        have c1 : stripNlSp "(\n" = "(" := by decide
        have c2 : stripNlSp "\n" = "" := by decide
        have c3 : stripNlSp ")" = ")" := by decide
        rw [c1, c2, c3]
        apply String.ext
        simp [String.data_append]
    · intro args lvl k hf hargs
      match args with
      | [] => rw [prettyPrintArgs, serializeJoin]; decide
      | [a] =>
        rw [prettyPrintArgs, serializeJoin]
        rw [argsFuel, argsFuel] at hf
        simp only [stripNlSp_append]
        rw [stripNlSp_spaces, ih.1 a lvl k (by omega) (hargs a (by simp))]
        apply String.ext
        simp [String.data_append]
      | a :: a2 :: rest =>
        rw [prettyPrintArgs, serializeJoin]
        rw [argsFuel] at hf
        simp only [stripNlSp_append]
        rw [stripNlSp_spaces, ih.1 a lvl k (by omega) (hargs a (by simp)),
          ih.2 (a2 :: rest) lvl k (by omega) (fun x hx => hargs x (by simp [hx]))]
        have c4 : stripNlSp ",\n" = "," := by decide
        rw [c4]
        apply String.ext
        simp [String.data_append]

/-- takeWhile_append_all: `takeWhile` passes over a block that satisfies
the predicate. -/
theorem takeWhile_append_all (p : Char → Bool) (name rest : List Char)
    (h : ∀ c ∈ name, p c = true) :
    List.takeWhile p (name ++ rest) = name ++ List.takeWhile p rest := by
  induction name with
  | nil => rfl
  | cons c cs ih =>
    simp only [List.cons_append, List.takeWhile_cons, h c (by simp), if_true, cond_true]
    rw [ih (fun x hx => h x (by simp [hx]))]

/-- dropWhile_append_all: `dropWhile` skips a block that satisfies the
predicate. -/
theorem dropWhile_append_all (p : Char → Bool) (name rest : List Char)
    (h : ∀ c ∈ name, p c = true) :
    List.dropWhile p (name ++ rest) = List.dropWhile p rest := by
  induction name with
  | nil => rfl
  | cons c cs ih =>
    simp only [List.cons_append, List.dropWhile_cons, h c (by simp), if_true, cond_true]
    exact ih (fun x hx => h x (by simp [hx]))

/-- parseNumToken_render: parsing back the rendering of any natural
number, in either regime (plain decimal or exponential), recovers the
value, for any continuation that cannot extend the token. -/
theorem parseNumToken_render (m : Nat) (rest : List Char)
    (hstop : stopperB rest = true) :
    parseNumToken ((jsNatToString m).data ++ rest) = some (m, rest) := by
  by_cases hlen : (natDigitChars m).length ≤ 21
  · rw [jsNat_plain m hlen, parseNumToken,
      parseDigits_natDigitChars m rest (stopperB_nonDigit hstop)]
    match rest with
    | [] => rfl
    | c :: cs =>
      obtain ⟨_, h2, h3⟩ := stopperB_head hstop
      simp only []
      rw [if_neg h2, if_neg h3]
  · obtain ⟨d, ds, hs⟩ : ∃ d ds, stripTrailingZeros (natDigitChars m) = d :: ds := by
      match hh : stripTrailingZeros (natDigitChars m) with
      | [] => exact absurd hh (strip_ne_nil m (jsNat_exp_ne_zero m hlen))
      | d :: ds => exact ⟨d, ds, rfl⟩
    have hdig : isDigitChar d = true :=
      natDigitChars_all_digit m d (stripTrailingZeros_sub _ d (by rw [hs]; simp))
    have hdsdig : ∀ c ∈ ds, isDigitChar c = true := by
      intro c hc
      exact natDigitChars_all_digit m c (stripTrailingZeros_sub _ c (by rw [hs]; simp [hc]))
    have hexp := parseDigits_natDigitChars ((natDigitChars m).length - 1) rest
      (stopperB_nonDigit hstop)
    by_cases hds : ds = []
    · subst hds
      have hv1 : digitVal d * 10 ^ ((natDigitChars m).length - 1) = m := by
        have h0 := strip_val m
        rw [hs] at h0
        simp only [List.foldl_cons, List.foldl_nil, List.length_singleton,
          Nat.zero_mul, Nat.zero_add] at h0
        exact h0
      rw [jsNat_exp_data_one m d hlen hs]
      simp only [List.cons_append, List.append_assoc]
      have hparse1 : parseDigits 0
          (d :: ('e' :: '+' :: (natDigitChars ((natDigitChars m).length - 1) ++ rest))) =
          (digitVal d, 'e' :: '+' :: (natDigitChars ((natDigitChars m).length - 1) ++ rest)) :=
        parseDigits_single d hdig _ (by rw [nonDigitHead]; decide)
      rw [parseNumToken, hparse1]
      simp only []
      rw [if_neg (by decide : ¬ (('e' : Char) = '.')), if_pos trivial, hexp]
      simp only []
      rw [hv1]
    · have hv2 : List.foldl (fun a c => a * 10 + digitVal c) (digitVal d) ds *
          10 ^ (((natDigitChars m).length - 1) - ds.length) = m := by
        have h0 := strip_val m
        rw [hs] at h0
        simp only [List.foldl_cons, List.length_cons, Nat.zero_mul, Nat.zero_add] at h0
        rw [show ((natDigitChars m).length - 1) - ds.length =
          (natDigitChars m).length - (ds.length + 1) from by omega]
        exact h0
      rw [jsNat_exp_data_many m d ds hlen hs hds]
      simp only [List.cons_append, List.append_assoc]
      have hparse2 : parseDigits 0
          (d :: ('.' :: (ds ++ 'e' :: '+' :: (natDigitChars ((natDigitChars m).length - 1) ++ rest)))) =
          (digitVal d, '.' :: (ds ++ 'e' :: '+' :: (natDigitChars ((natDigitChars m).length - 1) ++ rest))) :=
        parseDigits_single d hdig _ (by rw [nonDigitHead]; decide)
      have htw : (ds ++ 'e' :: '+' :: (natDigitChars ((natDigitChars m).length - 1) ++ rest)).takeWhile
          isDigitChar = ds := by
        rw [takeWhile_append_all isDigitChar ds _ hdsdig, List.takeWhile_cons]
        simp [show isDigitChar 'e' = false from by decide]
      have hdw : (ds ++ 'e' :: '+' :: (natDigitChars ((natDigitChars m).length - 1) ++ rest)).dropWhile
          isDigitChar = 'e' :: '+' :: (natDigitChars ((natDigitChars m).length - 1) ++ rest) := by
        rw [dropWhile_append_all isDigitChar ds _ hdsdig, List.dropWhile_cons]
        simp [show isDigitChar 'e' = false from by decide]
      rw [parseNumToken, hparse2]
      simp only []
      rw [if_pos trivial, hdw]
      simp only []
      rw [hexp]
      simp only []
      rw [htw, hv2]

/-- serializeTag_data: character-level form of a quote-free tag
serialization. -/
theorem serializeTag_data {name : String} (hq : ∀ c ∈ name.data, c ≠ squote) :
    (serializeTag name).data =
      't' :: 'a' :: 'g' :: '(' :: squote :: (name.data ++ [squote, ')']) := by
  rw [serializeTag, escapeQuotes_id name hq]
  simp [String.data_append, squoteStr]

/-- serializeOp_data: character-level form of an op serialization. -/
theorem serializeOp_data (o : OpType) (args : List PriceExpr) :
    (serializeExpr (.op o args)).data =
      (OpType.lower o).data ++ '(' :: ((serializeJoin args).data ++ [')']) := by
  rw [serializeExpr]
  simp [String.data_append]

/-- serializeJoin_cons_data: character-level form of a two-or-more
argument join. -/
theorem serializeJoin_cons_data (e e2 : PriceExpr) (rest : List PriceExpr) :
    (serializeJoin (e :: e2 :: rest)).data =
      (serializeExpr e).data ++ ',' :: (serializeJoin (e2 :: rest)).data := by
  rw [serializeJoin]
  simp [String.data_append]

/-- parseRT: the recursive-descent parser inverts serialization of valid
expressions, for any continuation that cannot extend the parse. -/
theorem parseRT (N : Nat) :
    (∀ e rest, validateExpr e = .ok () → exprFuel e ≤ N → stopperB rest = true →
      parseExprAux N ((serializeExpr e).data ++ rest) = some (e, rest)) ∧
    (∀ args rest, args ≠ [] → (∀ a ∈ args, validateExpr a = .ok ()) → argsFuel args ≤ N →
      parseArgsAux N ((serializeJoin args).data ++ ')' :: rest) = some (args, rest)) := by
  induction N with
  | zero =>
    constructor
    · intro e rest _ hf _
      exact absurd hf (by have := exprFuel_pos e; omega)
    · intro args rest _ _ hf
      exact absurd hf (by have := argsFuel_pos args; omega)
  | succ N ih =>
    constructor
    · intro e rest hv hf hstop
      match e with
      | .amount v =>
        obtain ⟨n, rfl⟩ := valid_amount_inv hv
        obtain ⟨d, ds, hd, hdig⟩ := jsNatToString_head n.natAbs
        have hnum := parseNumToken_render n.natAbs rest hstop
        by_cases hneg : n < 0
        · have hdata : (serializeExpr (.amount (.int n))).data =
              '-' :: (jsNatToString n.natAbs).data := by
            rw [serializeExpr, serializeAmount, jsNumToString, jsIntToString, if_pos hneg]
            simp [String.data_append]
          rw [hdata, List.cons_append, hd, List.cons_append, parseExprAux.eq_def]
          simp only []
          rw [if_pos trivial, if_pos hdig, ← List.cons_append, ← hd]
          simp only [hnum]
          rw [show (-(n.natAbs : Int)) = n from by omega]
        · have hdata : (serializeExpr (.amount (.int n))).data =
              (jsNatToString n.natAbs).data := by
            rw [serializeExpr, serializeAmount, jsNumToString, jsIntToString, if_neg hneg]
          have hnm : ¬ (d = '-') := digit_ne_minus hdig
          rw [hdata, hd, List.cons_append, parseExprAux.eq_def]
          simp only []
          rw [if_neg hnm, if_pos hdig, ← List.cons_append, ← hd]
          simp only [hnum]
          rw [show ((n.natAbs : Int)) = n from by omega]
      | .tag name =>
        have hregex := valid_tag_inv hv
        have hchars := regex_chars hregex
        have hq : ∀ c ∈ name.data, c ≠ squote := fun c hc => tagRest_ne_squote (hchars c hc)
        have hptrue : ∀ c ∈ name.data, (fun ch => decide (ch ≠ squote)) c = true := by
          intro c hc
          simp [hq c hc]
        have htw : List.takeWhile (fun ch => decide (ch ≠ squote))
            (name.data ++ squote :: ')' :: rest) = name.data := by
          rw [takeWhile_append_all _ name.data _ hptrue, List.takeWhile_cons]
          simp
        have hdw : List.dropWhile (fun ch => decide (ch ≠ squote))
            (name.data ++ squote :: ')' :: rest) = squote :: ')' :: rest := by
          rw [dropWhile_append_all _ name.data _ hptrue, List.dropWhile_cons]
          simp
        rw [show (serializeExpr (.tag name)) = serializeTag name from by rw [serializeExpr]]
        rw [serializeTag_data hq]
        simp only [List.cons_append]
        rw [parseExprAux.eq_def]
        simp only []
        simp only [List.take, List.drop, List.append_assoc, List.cons_append,
          List.nil_append]
        rw [if_pos trivial]
        rw [htw, hdw]
        simp [string_mk_data, show isDigitChar 't' = false from by decide]
      | .op o args =>
        obtain ⟨hlen, hargs⟩ := valid_op_inv hv
        have hne : args ≠ [] := by
          intro hnil
          rw [hnil] at hlen
          simp at hlen
        rw [exprFuel] at hf
        have hargsRT := ih.2 args rest hne hargs (by omega)
        rw [serializeOp_data o args]
        cases o with
        | ADD =>
          rw [OpType.lower, show ("add" : String).data = ['a', 'd', 'd'] from rfl]
          simp only [List.cons_append, List.nil_append, List.append_assoc, List.cons_append]
          rw [parseExprAux.eq_def]
          simp only []
          simp [List.take, List.drop, hargsRT,
            show isDigitChar 'a' = false from by decide]
        | SUB =>
          rw [OpType.lower, show ("sub" : String).data = ['s', 'u', 'b'] from rfl]
          simp only [List.cons_append, List.nil_append, List.append_assoc, List.cons_append]
          rw [parseExprAux.eq_def]
          simp only []
          simp [List.take, List.drop, hargsRT,
            show isDigitChar 's' = false from by decide]
        | MUL =>
          rw [OpType.lower, show ("mul" : String).data = ['m', 'u', 'l'] from rfl]
          simp only [List.cons_append, List.nil_append, List.append_assoc, List.cons_append]
          rw [parseExprAux.eq_def]
          simp only []
          simp [List.take, List.drop, hargsRT,
            show isDigitChar 'm' = false from by decide]
        | DIV =>
          rw [OpType.lower, show ("div" : String).data = ['d', 'i', 'v'] from rfl]
          simp only [List.cons_append, List.nil_append, List.append_assoc, List.cons_append]
          rw [parseExprAux.eq_def]
          simp only []
          simp [List.take, List.drop, hargsRT,
            show isDigitChar 'd' = false from by decide]
    · intro args rest hne hargs hf
      match args with
      | [e] =>
        rw [argsFuel, argsFuel] at hf
        have heRT := ih.1 e (')' :: rest) (hargs e (by simp)) (by omega)
          (by rw [stopperB]; decide)
        rw [show serializeJoin [e] = serializeExpr e from by rw [serializeJoin]]
        rw [parseArgsAux.eq_def]
        simp only []
        rw [heRT]
        rfl
      | e :: e2 :: rest2 =>
        rw [argsFuel] at hf
        rw [serializeJoin_cons_data e e2 rest2]
        rw [show ((serializeExpr e).data ++ ',' :: (serializeJoin (e2 :: rest2)).data) ++
            ')' :: rest =
            (serializeExpr e).data ++
              ',' :: ((serializeJoin (e2 :: rest2)).data ++ ')' :: rest) from by simp]
        have heRT := ih.1 e (',' :: ((serializeJoin (e2 :: rest2)).data ++ ')' :: rest))
          (hargs e (by simp)) (by omega) (by rw [stopperB]; decide)
        have htail := ih.2 (e2 :: rest2) rest (by simp)
          (fun a ha => hargs a (by simp [ha])) (by omega)
        rw [parseArgsAux.eq_def]
        simp only []
        rw [heRT]
        simp only []
        rw [htail]
        rfl

/-- serializeJoin_eq: the fused join equals mapping then joining with
commas, which is how serialize.ts writes it. -/
theorem serializeJoin_eq (args : List PriceExpr) :
    serializeJoin args = joinWithComma (args.map serializeExpr) := by
  induction args with
  | nil => rfl
  | cons e rest ih =>
    match rest with
    | [] => rfl
    | e2 :: rest2 =>
      simp only [serializeJoin, List.map_cons, joinWithComma]
      simp only [List.map_cons] at ih
      rw [ih]

/-- C1: the serializer produces the canonical single-line form: an Amount
prints its value, a Tag prints `tag(\x27name\x27)` with single quotes in the
name escaped, an Op prints its lower-cased name and its arguments in
stored order joined by single commas, no whitespace appears anywhere in
the serialization of a valid expression, and the documented concrete
scenario `add(mul(tag(\x27PREMIUM_CALL\x27),3),tag(\x27EXTRA_FEE\x27),250)` holds. -/
theorem C1_canonical_serialization :
    (∀ v, serializeExpr (.amount v) = jsNumToString v) ∧
    (∀ name, serializeExpr (.tag name) =
      "tag(" ++ squoteStr ++ escapeQuotes name ++ squoteStr ++ ")") ∧
    (∀ o args, serializeExpr (.op o args) =
      o.lower ++ "(" ++ joinWithComma (args.map serializeExpr) ++ ")") ∧
    (∀ e, isValidExpr e = true →
      (serializeExpr e).data.all (fun c => !isJSWhitespaceChar c) = true) ∧
    serializeExpr (.op .ADD [.op .MUL [.tag "PREMIUM_CALL", .amount (.int 3)],
      .tag "EXTRA_FEE", .amount (.int 250)]) =
      "add(mul(tag(\x27PREMIUM_CALL\x27),3),tag(\x27EXTRA_FEE\x27),250)" := by
  refine ⟨fun v => rfl, fun name => rfl, fun o args => ?_, fun e hv => ?_, by decide⟩
  · rw [serializeExpr, serializeJoin_eq]
  · rw [List.all_eq_true]
    intro c hc
    have ht := serializeExpr_tokens ((isValid_iff_ok e).mp hv) c hc
    rw [tokenChar_not_ws ht]
    rfl

/-- C1 witness: the whitespace-freedom part evaluated at the concrete
scenario expression. -/
theorem C1_witness :
    (serializeExpr (.op .ADD [.op .MUL [.tag "PREMIUM_CALL", .amount (.int 3)],
      .tag "EXTRA_FEE", .amount (.int 250)])).data.all
        (fun c => !isJSWhitespaceChar c) = true :=
  C1_canonical_serialization.2.2.2.1 _ (by decide)

/-- C2: on valid expressions, serialization is deterministic and
injective: two valid expressions serialize to the same string exactly when
they are structurally equal. -/
theorem C2_serialize_injective (e1 e2 : PriceExpr)
    (h1 : isValidExpr e1 = true) (h2 : isValidExpr e2 = true) :
    serializeExpr e1 = serializeExpr e2 ↔ e1 = e2 := by
  constructor
  · intro hser
    have hv1 := (isValid_iff_ok e1).mp h1
    have hv2 := (isValid_iff_ok e2).mp h2
    have p1 := (parseRT (exprFuel e1 + exprFuel e2)).1 e1 [] hv1 (by omega) (by decide)
    have p2 := (parseRT (exprFuel e1 + exprFuel e2)).1 e2 [] hv2 (by omega) (by decide)
    rw [hser] at p1
    rw [p2] at p1
    simp only [Option.some.injEq, Prod.mk.injEq, and_true] at p1
    exact p1.symm
  · intro he
    rw [he]

/-- C2 witness: the iff applied to two concrete valid expressions. -/
theorem C2_witness :
    serializeExpr (.tag "A") = serializeExpr (.amount (.int 1)) ↔
      (PriceExpr.tag "A") = (.amount (.int 1)) :=
  C2_serialize_injective (.tag "A") (.amount (.int 1)) (by decide) (by decide)

/-- C3: the div builder rejects exactly the literal-zero divisors: with at
least two otherwise-valid arguments it throws the division-by-zero error
naming the 1-based position of the first literal-zero argument at index
≥ 1, and succeeds otherwise (zero dividends, tag divisors and nested op
divisors are never rejected). -/
theorem C3_div_literal_zero (inputs : List ExprInput)
    (hlen : 2 ≤ inputs.length)
    (hv : ∀ a ∈ inputs.map toExpr, isValidExpr a = true) :
    div inputs = (match firstZeroDivisorIdx (inputs.map toExpr) with
      | some i => Except.error (divZeroMsg (i + 1))
      | none => Except.ok (PriceExpr.op .DIV (inputs.map toExpr))) := by
  have hargs : ∀ a ∈ inputs.map toExpr, validateExpr a = .ok () :=
    fun a ha => (isValid_iff_ok a).mp (hv a ha)
  simp only [div]
  rw [validateExpr_op, validateOp.eq_def,
    if_neg (by rw [List.length_map]; omega),
    (validateArgs_ok_iff _).mpr hargs]
  simp only []
  rw [if_pos trivial, checkDivZero_eq]
  rw [firstZeroDivisorIdx]
  cases hfz : firstZeroFrom 1 ((inputs.map toExpr).drop 1) with
  | none => rfl
  | some i => rfl

/-- C3 witness: `div(100, tag(DIVISOR))` succeeds and builds the expected
node. -/
theorem C3_witness :
    div [.num (.int 100), .expr (.tag "DIVISOR")] =
      Except.ok (PriceExpr.op .DIV [.amount (.int 100), .tag "DIVISOR"]) :=
  (C3_div_literal_zero [.num (.int 100), .expr (.tag "DIVISOR")]
    (by decide) (by decide)).trans (by rfl)

/-- buildMap_err: a builder given fewer than two inputs produces the
argument-count error. -/
theorem buildMap_err {o : OpType} {inputs : List ExprInput} (h : inputs.length < 2) :
    Except.map (fun _ => PriceExpr.op o (inputs.map toExpr))
      (validateExpr (.op o (inputs.map toExpr))) =
      .error (opCountMsg o inputs.length) := by
  rw [validateExpr_op, validateOp.eq_def,
    if_pos (by rw [List.length_map]; omega), List.length_map]
  rfl

/-- buildMap_ok_inv: whatever a builder returns successfully is the
assembled node, and it is valid. -/
theorem buildMap_ok_inv {o : OpType} {inputs : List ExprInput} {e : PriceExpr}
    (h : Except.map (fun _ => PriceExpr.op o (inputs.map toExpr))
      (validateExpr (.op o (inputs.map toExpr))) = .ok e) :
    e = .op o (inputs.map toExpr) ∧ isValidExpr e = true := by
  cases hv : validateExpr (.op o (inputs.map toExpr)) with
  | error m =>
    rw [hv] at h
    exact absurd h (by simp [Except.map])
  | ok u =>
    cases u
    rw [hv] at h
    simp only [Except.map, Except.ok.injEq] at h
    subst h
    exact ⟨rfl, (isValid_iff_ok _).mpr hv⟩

/-- buildMap_ok: a builder with enough valid inputs (and, for DIV, no
literal-zero divisor) succeeds with the assembled node. -/
theorem buildMap_ok {o : OpType} {inputs : List ExprInput}
    (hlen : 2 ≤ inputs.length)
    (hv : ∀ a ∈ inputs.map toExpr, isValidExpr a = true)
    (hz : o = .DIV → firstZeroDivisorIdx (inputs.map toExpr) = none) :
    Except.map (fun _ => PriceExpr.op o (inputs.map toExpr))
      (validateExpr (.op o (inputs.map toExpr))) =
      .ok (.op o (inputs.map toExpr)) := by
  have hok : validateExpr (.op o (inputs.map toExpr)) = .ok () := by
    rw [validateExpr_op, validateOp.eq_def, if_neg (by rw [List.length_map]; omega),
      (validateArgs_ok_iff _).mpr (fun a ha => (isValid_iff_ok a).mp (hv a ha))]
    simp only []
    by_cases ho : o = OpType.DIV
    · subst ho
      rw [if_pos rfl, checkDivZero_eq]
      have hnone := hz rfl
      rw [firstZeroDivisorIdx] at hnone
      rw [hnone]
    · rw [if_neg ho]
  rw [hok]
  rfl

/-- C4: every builder either throws or returns a fully valid node: the op
builders throw the count error below two inputs, return exactly the
assembled node (operator plus inputs in order, numbers wrapped) on
success, succeed whenever the inputs are acceptable, and every successful
result of any builder satisfies `isValidExpr`. -/
theorem C4_builders_valid :
    (∀ inputs : List ExprInput,
      (inputs.length < 2 → add inputs = .error (opCountMsg .ADD inputs.length)) ∧
      (∀ e, add inputs = .ok e → e = .op .ADD (inputs.map toExpr) ∧ isValidExpr e = true) ∧
      (2 ≤ inputs.length → (∀ a ∈ inputs.map toExpr, isValidExpr a = true) →
        add inputs = .ok (.op .ADD (inputs.map toExpr)))) ∧
    (∀ inputs : List ExprInput,
      (inputs.length < 2 → sub inputs = .error (opCountMsg .SUB inputs.length)) ∧
      (∀ e, sub inputs = .ok e → e = .op .SUB (inputs.map toExpr) ∧ isValidExpr e = true) ∧
      (2 ≤ inputs.length → (∀ a ∈ inputs.map toExpr, isValidExpr a = true) →
        sub inputs = .ok (.op .SUB (inputs.map toExpr)))) ∧
    (∀ inputs : List ExprInput,
      (inputs.length < 2 → mul inputs = .error (opCountMsg .MUL inputs.length)) ∧
      (∀ e, mul inputs = .ok e → e = .op .MUL (inputs.map toExpr) ∧ isValidExpr e = true) ∧
      (2 ≤ inputs.length → (∀ a ∈ inputs.map toExpr, isValidExpr a = true) →
        mul inputs = .ok (.op .MUL (inputs.map toExpr)))) ∧
    (∀ inputs : List ExprInput,
      (inputs.length < 2 → div inputs = .error (opCountMsg .DIV inputs.length)) ∧
      (∀ e, div inputs = .ok e → e = .op .DIV (inputs.map toExpr) ∧ isValidExpr e = true) ∧
      (2 ≤ inputs.length → (∀ a ∈ inputs.map toExpr, isValidExpr a = true) →
        firstZeroDivisorIdx (inputs.map toExpr) = none →
        div inputs = .ok (.op .DIV (inputs.map toExpr)))) ∧
    (∀ s e, tag s = .ok e → isValidExpr e = true) ∧
    (∀ v e, amount v = .ok e → isValidExpr e = true) := by
  refine ⟨fun inputs => ⟨fun hlen => ?_, fun e he => ?_, fun hlen hv => ?_⟩,
    fun inputs => ⟨fun hlen => ?_, fun e he => ?_, fun hlen hv => ?_⟩,
    fun inputs => ⟨fun hlen => ?_, fun e he => ?_, fun hlen hv => ?_⟩,
    fun inputs => ⟨fun hlen => ?_, fun e he => ?_, fun hlen hv hz => ?_⟩,
    fun s e he => ?_, fun v e he => ?_⟩
  · simp only [add]; exact buildMap_err hlen
  · simp only [add] at he; exact buildMap_ok_inv he
  · simp only [add]; exact buildMap_ok hlen hv (fun h => nomatch h)
  · simp only [sub]; exact buildMap_err hlen
  · simp only [sub] at he; exact buildMap_ok_inv he
  · simp only [sub]; exact buildMap_ok hlen hv (fun h => nomatch h)
  · simp only [mul]; exact buildMap_err hlen
  · simp only [mul] at he; exact buildMap_ok_inv he
  · simp only [mul]; exact buildMap_ok hlen hv (fun h => nomatch h)
  · simp only [div]; exact buildMap_err hlen
  · simp only [div] at he; exact buildMap_ok_inv he
  · simp only [div]; exact buildMap_ok hlen hv (fun _ => hz)
  · simp only [tag] at he
    cases hv : validateExpr (.tag s) with
    | error m => rw [hv] at he; exact absurd he (by simp [Except.map])
    | ok u =>
      cases u
      rw [hv] at he
      simp only [Except.map, Except.ok.injEq] at he
      subst he
      exact (isValid_iff_ok _).mpr hv
  · simp only [amount] at he
    cases hv : validateExpr (.amount v) with
    | error m => rw [hv] at he; exact absurd he (by simp [Except.map])
    | ok u =>
      cases u
      rw [hv] at he
      simp only [Except.map, Except.ok.injEq] at he
      subst he
      exact (isValid_iff_ok _).mpr hv

/-- C4 witness: a one-input call throws the count error; a two-input call
returns the assembled node. -/
theorem C4_witness :
    add [.num (.int 1)] = .error (opCountMsg .ADD 1) ∧
    add [.num (.int 1), .num (.int 2)] =
      .ok (.op .ADD [.amount (.int 1), .amount (.int 2)]) :=
  ⟨(C4_builders_valid.1 [.num (.int 1)]).1 (by decide),
   (C4_builders_valid.1 [.num (.int 1), .num (.int 2)]).2.2 (by decide) (by decide)⟩

/-- C5: validation reports the first violation depth-first and
left-to-right: the count check fires first and cites the lower-cased name
and actual count; otherwise the error of the leftmost invalid argument
propagates; a deeply nested bad leaf fails the whole expression;
`div(2.5, 0)` reports the non-integer amount, not division by zero; and
for DIV with recursively valid arguments the scan reports the
lowest-index literal-zero divisor. -/
theorem C5_validation_order :
    (∀ o args, args.length < 2 →
      validateExpr (.op o args) = .error (opCountMsg o args.length)) ∧
    (∀ o pre bad post m, 2 ≤ (pre ++ bad :: post).length →
      (∀ a ∈ pre, isValidExpr a = true) → validateExpr bad = .error m →
      validateExpr (.op o (pre ++ bad :: post)) = .error m) ∧
    (validateExpr (.op .ADD [.op .MUL [.amount (.int 1), .amount (.nonIntFinite "2.5")],
      .amount (.int 5)]) = .error (amountIntegerMsg (.nonIntFinite "2.5"))) ∧
    (validateExpr (.op .DIV [.amount (.nonIntFinite "2.5"), .amount (.int 0)]) =
      .error (amountIntegerMsg (.nonIntFinite "2.5"))) ∧
    (∀ args, 2 ≤ args.length → (∀ a ∈ args, isValidExpr a = true) →
      validateExpr (.op .DIV args) = (match firstZeroDivisorIdx args with
        | some i => Except.error (divZeroMsg (i + 1))
        | none => Except.ok ())) := by
  refine ⟨fun o args h => ?_, fun o pre bad post m hlen hpre hbad => ?_, by rfl, by rfl,
    fun args hlen hv => ?_⟩
  · rw [validateExpr_op, validateOp.eq_def, if_pos h]
  · rw [validateExpr_op, validateOp.eq_def, if_neg (by omega),
      validateArgs_append_error pre bad post m
        (fun a ha => (isValid_iff_ok a).mp (hpre a ha)) hbad]
  · rw [validateExpr_op, validateOp.eq_def, if_neg (by omega),
      (validateArgs_ok_iff _).mpr (fun a ha => (isValid_iff_ok a).mp (hv a ha))]
    simp only []
    rw [if_pos trivial, checkDivZero_eq, firstZeroDivisorIdx]

/-- C5 witness: the count check applied to a zero-argument op. -/
theorem C5_witness :
    validateExpr (.op .MUL []) = .error (opCountMsg .MUL 0) :=
  C5_validation_order.1 .MUL [] (by decide)

/-- string_length_zero_iff: a string has length zero exactly when it is
empty. -/
theorem string_length_zero_iff (s : String) : s.length = 0 ↔ s = "" := by
  constructor
  · intro h
    apply String.ext
    have hd : s.data.length = 0 := h
    rw [List.length_eq_zero.mp hd]
  · intro h
    rw [h]
    rfl

/-- validateTagName_ok_iff: the tag-name validator succeeds exactly on
nonempty, boundary-whitespace-free, regex-matching names. -/
theorem validateTagName_ok_iff (s : String) :
    validateTagName s = .ok () ↔
      (s ≠ "" ∧ jsTrim s = s ∧ matchesTagRegex s = true) := by
  constructor
  · intro h
    rw [validateTagName] at h
    by_cases h1 : s.length = 0
    · rw [if_pos h1] at h; exact absurd h (by simp)
    · rw [if_neg h1] at h
      by_cases h2 : jsTrim s ≠ s
      · rw [if_pos h2] at h; exact absurd h (by simp)
      · rw [if_neg h2] at h
        by_cases h3 : (jsTrim s).length = 0
        · rw [if_pos h3] at h; exact absurd h (by simp)
        · rw [if_neg h3] at h
          by_cases h4 : matchesTagRegex s = true
          · exact ⟨fun he => h1 ((string_length_zero_iff s).mpr he), not_not.mp h2, h4⟩
          · rw [if_pos (by simp [h4])] at h
            exact absurd h (by simp)
  · rintro ⟨hne, htrim, hreg⟩
    have h1 : ¬ s.length = 0 := fun h => hne ((string_length_zero_iff s).mp h)
    rw [validateTagName, if_neg h1, if_neg (not_not.mpr htrim),
      if_neg (by rw [htrim]; exact h1), if_neg (by simp [hreg])]

/-- tag_ok_iff: the tag builder succeeds exactly when the name validator
does. -/
theorem tag_ok_iff (s : String) :
    (∃ e, tag s = .ok e) ↔ validateTagName s = .ok () := by
  constructor
  · rintro ⟨e, he⟩
    simp only [tag] at he
    cases hv : validateExpr (.tag s) with
    | error m => rw [hv] at he; exact absurd he (by simp [Except.map])
    | ok u =>
      cases u
      rw [validateExpr] at hv
      exact hv
  · intro h
    refine ⟨.tag s, ?_⟩
    simp only [tag]
    rw [show validateExpr (.tag s) = validateTagName s from by rw [validateExpr], h]
    rfl

/-- C6: `tag(s)` succeeds exactly when `s` is nonempty, has no boundary
whitespace, and matches `^[A-Za-z_][A-Za-z0-9_-]*$`; any other string
makes it throw. -/
theorem C6_tag_name_rule :
    (∀ s, (∃ e, tag s = .ok e) ↔
      (s ≠ "" ∧ jsTrim s = s ∧ matchesTagRegex s = true)) ∧
    (∀ s, ¬ (s ≠ "" ∧ jsTrim s = s ∧ matchesTagRegex s = true) →
      ∃ m, tag s = .error m) := by
  have hiff : ∀ s, (∃ e, tag s = .ok e) ↔
      (s ≠ "" ∧ jsTrim s = s ∧ matchesTagRegex s = true) := by
    intro s
    rw [← validateTagName_ok_iff]
    exact tag_ok_iff s
  refine ⟨hiff, fun s hbad => ?_⟩
  cases ht : tag s with
  | error m => exact ⟨m, rfl⟩
  | ok e => exact absurd ((hiff s).mp ⟨e, ht⟩) hbad

/-- C6 witness: the rule applied to a well-formed name and to a name with
leading whitespace. -/
theorem C6_witness :
    (∃ e, tag "PREMIUM_CALL" = .ok e) ∧ (∃ m, tag " BAD" = .error m) :=
  ⟨(C6_tag_name_rule.1 "PREMIUM_CALL").mpr ⟨by decide, by decide, by decide⟩,
   C6_tag_name_rule.2 " BAD" (by
    intro h
    exact absurd h.2.1 (by decide))⟩

/-- amountMsgs_ne: the non-finite message and the non-integer message are
distinct for all values (they diverge inside their fixed prefixes). -/
theorem amountMsgs_ne (v w : JSNumber) : amountFiniteMsg v ≠ amountIntegerMsg w := by
  intro h
  have h2 : (amountFiniteMsg v).data.take 17 = (amountIntegerMsg w).data.take 17 := by
    rw [h]
  rw [amountFiniteMsg, amountIntegerMsg, String.data_append, String.data_append,
    String.data_append] at h2
  rw [List.take_append_of_le_length (by decide)] at h2
  rw [List.take_append_of_le_length (by
    rw [List.length_append]
    have hp : 17 ≤ ("Amount must be an integer (cents), got: ").data.length := by decide
    omega)] at h2
  rw [List.take_append_of_le_length (by decide)] at h2
  exact absurd h2 (by decide)

/-- isIntLiteral_jsInt: in the plain-decimal regime (at most 21 decimal
digits) the rendering of a finite integer is an integer literal of the
canonical grammar; from 10^21 on, JS switches to exponential notation
and the rendering stops being an integer literal. -/
theorem isIntLiteral_jsInt (n : Int)
    (hlen : (natDigitChars n.natAbs).length ≤ 21) :
    isIntLiteral (jsIntToString n) = true := by
  obtain ⟨d, ds, hd⟩ : ∃ d ds, natDigitChars n.natAbs = d :: ds := by
    match hh : natDigitChars n.natAbs with
    | [] => exact absurd hh (natDigitChars_ne_nil _)
    | d :: ds => exact ⟨d, ds, rfl⟩
  have hall := natDigitChars_all_digit n.natAbs
  have hdig : isDigitChar d = true := hall d (by rw [hd]; simp)
  by_cases hneg : n < 0
  · have hdata : (("-" : String) ++ jsNatToString n.natAbs).data =
        '-' :: natDigitChars n.natAbs := by
      rw [String.data_append, jsNat_plain _ hlen]
      rfl
    rw [jsIntToString, if_pos hneg, isIntLiteral, hdata]
    simp only []
    rw [if_pos trivial, hd]
    simp only [List.isEmpty_cons, Bool.not_false, Bool.true_and]
    exact List.all_eq_true.mpr (fun c hc => hall c (by rw [hd]; exact hc))
  · rw [jsIntToString, if_neg hneg, isIntLiteral, jsNat_plain _ hlen, hd]
    simp only []
    rw [if_neg (digit_ne_minus hdig)]
    simp only [hdig, Bool.true_and]
    exact List.all_eq_true.mpr (fun c hc => hall c (by rw [hd]; simp [hc]))

/-- C7 counterexample to the original claim: `amount(10^21)` succeeds
(the value is a finite integer), but JS renders it in exponential
notation, so the serialized form "1e+21" is not an integer literal of the
canonical grammar. -/
theorem C7_counterexample :
    (∃ e, amount (.int 1000000000000000000000) = .ok e) ∧
    serializeExpr (.amount (.int 1000000000000000000000)) = "1e+21" ∧
    isIntLiteral "1e+21" = false :=
  ⟨⟨.amount (.int 1000000000000000000000), rfl⟩, by rfl, by decide⟩

/-- C7 (amended): `amount(n)` succeeds exactly on finite integers;
non-finite values get the finite-number message, finite non-integers get
the distinct integer-cents message, and a successful amount serializes to
the value's `toString`; that rendering is an integer literal of the
canonical grammar whenever the absolute value is below 10^21, while from
10^21 on JS uses exponential notation (10^21 renders as "1e+21", which is
not an integer literal). -/
theorem C7_amount_rule :
    (∀ v : JSNumber, (∃ e, amount v = .ok e) ↔
      (v.isFinite = true ∧ v.isInteger = true)) ∧
    (∀ v, v.isFinite = false → amount v = .error (amountFiniteMsg v)) ∧
    (∀ v, v.isFinite = true → v.isInteger = false →
      amount v = .error (amountIntegerMsg v)) ∧
    (∀ v w, amountFiniteMsg v ≠ amountIntegerMsg w) ∧
    (∀ v e, amount v = .ok e → serializeExpr e = jsNumToString v) ∧
    (∀ n : Int, n.natAbs < 10 ^ 21 → isIntLiteral (jsIntToString n) = true) ∧
    (serializeExpr (.amount (.int 1000000000000000000000)) = "1e+21" ∧
      isIntLiteral "1e+21" = false) := by
  refine ⟨fun v => ?_, fun v hf => ?_, fun v hf hi => ?_, amountMsgs_ne,
    fun v e he => ?_,
    fun n hn => isIntLiteral_jsInt n (natDigitChars_length_le n.natAbs 21 (by omega) hn),
    by rfl, by decide⟩
  · cases v with
    | int n => exact ⟨fun _ => ⟨rfl, rfl⟩, fun _ => ⟨.amount (.int n), rfl⟩⟩
    | nonIntFinite r =>
      constructor
      · rintro ⟨e, he⟩
        exact absurd he (by simp [amount, validateExpr, validateAmount,
          JSNumber.isFinite, JSNumber.isInteger, Except.map])
      · rintro ⟨_, h2⟩
        exact absurd h2 (by simp [JSNumber.isInteger])
    | nan =>
      constructor
      · rintro ⟨e, he⟩
        exact absurd he (by simp [amount, validateExpr, validateAmount,
          JSNumber.isFinite, Except.map])
      · rintro ⟨h1, _⟩
        exact absurd h1 (by simp [JSNumber.isFinite])
    | inf b =>
      constructor
      · rintro ⟨e, he⟩
        exact absurd he (by simp [amount, validateExpr, validateAmount,
          JSNumber.isFinite, Except.map])
      · rintro ⟨h1, _⟩
        exact absurd h1 (by simp [JSNumber.isFinite])
  · cases v with
    | int n => exact absurd hf (by simp [JSNumber.isFinite])
    | nonIntFinite r => exact absurd hf (by simp [JSNumber.isFinite])
    | nan => rfl
    | inf b => rfl
  · cases v with
    | int n => exact absurd hi (by simp [JSNumber.isInteger])
    | nonIntFinite r => rfl
    | nan => exact absurd hf (by simp [JSNumber.isFinite])
    | inf b => exact absurd hf (by simp [JSNumber.isFinite])
  · simp only [amount] at he
    cases hv : validateExpr (.amount v) with
    | error m => rw [hv] at he; exact absurd he (by simp [Except.map])
    | ok u =>
      cases u
      rw [hv] at he
      simp only [Except.map, Except.ok.injEq] at he
      subst he
      obtain ⟨n, rfl⟩ := valid_amount_inv hv
      rfl

/-- C7 witness: the success side of the iff at 250, the serialized form
of the built node, and the integer-literal property in the decimal
regime. -/
theorem C7_witness :
    (∃ e, amount (.int 250) = .ok e) ∧
    serializeExpr (.amount (.int 250)) = jsNumToString (.int 250) ∧
    isIntLiteral (jsIntToString 250) = true :=
  ⟨(C7_amount_rule.1 (.int 250)).mpr ⟨by decide, by decide⟩,
   C7_amount_rule.2.2.2.2.1 (.int 250) (.amount (.int 250)) (by rfl),
   C7_amount_rule.2.2.2.2.2.1 250 (by decide)⟩

/-- tagBoundary_ne_onlyWs: the boundary-whitespace message never equals
the whitespace-only message. -/
theorem tagBoundary_ne_onlyWs (name : String) :
    tagBoundaryWsMsg name ≠ tagOnlyWsMsg := by
  intro h
  have h2 : (tagBoundaryWsMsg name).data.take 17 = tagOnlyWsMsg.data.take 17 := by
    rw [h]
  rw [tagBoundaryWsMsg, String.data_append, String.data_append] at h2
  rw [List.take_append_of_le_length (by
    rw [List.length_append]
    have hp : 17 ≤ ("Tag name cannot have leading or trailing whitespace: \"").data.length := by
      decide
    omega)] at h2
  rw [List.take_append_of_le_length (by decide)] at h2
  exact absurd h2 (by decide)

/-- tagFormat_ne_onlyWs: the format message never equals the
whitespace-only message. -/
theorem tagFormat_ne_onlyWs (name : String) :
    tagFormatMsg name ≠ tagOnlyWsMsg := by
  intro h
  have h2 : (tagFormatMsg name).data.take 10 = tagOnlyWsMsg.data.take 10 := by
    rw [h]
  rw [tagFormatMsg, String.data_append, String.data_append, String.data_append] at h2
  rw [List.take_append_of_le_length (by
    rw [List.length_append, List.length_append]
    have hp : 10 ≤
        ("Tag name must start with a letter or underscore and contain only ").data.length := by
      decide
    omega)] at h2
  rw [List.take_append_of_le_length (by
    rw [List.length_append]
    have hp : 10 ≤
        ("Tag name must start with a letter or underscore and contain only ").data.length := by
      decide
    omega)] at h2
  rw [List.take_append_of_le_length (by decide)] at h2
  exact absurd h2 (by decide)

/-- C8 counterexample: a one-space tag name fails with the
leading-or-trailing-whitespace message, which is not the whitespace-only
message — so the claimed whitespace-only message does not appear. -/
theorem C8_counterexample :
    validateExpr (.tag " ") = .error (tagBoundaryWsMsg " ") ∧
    validateExpr (.tag " ") ≠ .error tagOnlyWsMsg ∧
    tagBoundaryWsMsg " " ≠ tagOnlyWsMsg := by
  have h1 : validateExpr (.tag " ") = .error (tagBoundaryWsMsg " ") := rfl
  have h3 : tagBoundaryWsMsg " " ≠ tagOnlyWsMsg := by decide
  exact ⟨h1, fun h => h3 (Except.error.inj (h1 ▸ h)), h3⟩

/-- C8 amended: every nonempty whitespace-only tag name is rejected, but
with the leading-or-trailing-whitespace message; the dedicated
whitespace-only message is unreachable — no tag name ever produces it. -/
theorem C8_amended :
    (∀ s : String, s ≠ "" → s.data.all isJSWhitespaceChar = true →
      validateExpr (.tag s) = .error (tagBoundaryWsMsg s)) ∧
    (∀ s : String, validateExpr (.tag s) ≠ .error tagOnlyWsMsg) := by
  constructor
  · intro s hne hws
    have htrim : jsTrim s = "" := by
      rw [jsTrim, List.dropWhile_eq_nil_iff.mpr
        (fun a ha => List.all_eq_true.mp hws a ha)]
      rfl
    have h1 : ¬ s.length = 0 := fun h => hne ((string_length_zero_iff s).mp h)
    rw [show validateExpr (.tag s) = validateTagName s from by rw [validateExpr],
      validateTagName, if_neg h1,
      if_pos (show jsTrim s ≠ s from by rw [htrim]; exact fun h => hne h.symm)]
  · intro s h
    rw [show validateExpr (.tag s) = validateTagName s from by rw [validateExpr],
      validateTagName] at h
    by_cases h1 : s.length = 0
    · rw [if_pos h1] at h
      simp only [Except.error.injEq] at h
      exact absurd h (by decide)
    · rw [if_neg h1] at h
      by_cases h2 : jsTrim s ≠ s
      · rw [if_pos h2] at h
        simp only [Except.error.injEq] at h
        exact tagBoundary_ne_onlyWs s h
      · rw [if_neg h2] at h
        by_cases h3 : (jsTrim s).length = 0
        · rw [if_pos h3] at h
          apply h1
          rw [← not_not.mp h2]
          exact h3
        · rw [if_neg h3] at h
          by_cases h4 : matchesTagRegex s = true
          · rw [if_neg (by simp [h4])] at h
            exact absurd h (by simp)
          · rw [if_pos (by simp [h4])] at h
            simp only [Except.error.injEq] at h
            exact tagFormat_ne_onlyWs s h

/-- C8 amended witness: the amended rejection rule evaluated on a
two-space name. -/
theorem C8_witness :
    validateExpr (.tag "  ") = .error (tagBoundaryWsMsg "  ") :=
  C8_amended.1 "  " (by decide) (by decide)

/-- C9: deleting every newline and space from the pretty-printed form of a
valid expression recovers the canonical serialization exactly, and the
pretty layout places each argument on its own line behind
`depth * indent` spaces, closing at the operator's own indentation. -/
theorem C9_pretty_strip :
    (∀ e k, isValidExpr e = true →
      stripNlSp (prettyPrintExpr e k) = serializeExpr e) ∧
    (∀ o args level k, ¬ args.length = 0 →
      prettyPrintInternal (.op o args) level k =
        o.lower ++ "(\n" ++ prettyPrintArgs args (level + 1) k ++ "\n" ++
          spacesRepeat (level * k) ++ ")") ∧
    (∀ a a2 rest lvl k, prettyPrintArgs (a :: a2 :: rest) lvl k =
      spacesRepeat (lvl * k) ++ prettyPrintInternal a lvl k ++ ",\n" ++
        prettyPrintArgs (a2 :: rest) lvl k) ∧
    (∀ a lvl k, prettyPrintArgs [a] lvl k =
      spacesRepeat (lvl * k) ++ prettyPrintInternal a lvl k) := by
  refine ⟨fun e k hv => ?_, fun o args level k hne => ?_,
    fun a a2 rest lvl k => ?_, fun a lvl k => ?_⟩
  · rw [prettyPrintExpr]
    exact (stripPretty (exprFuel e)).1 e 0 k (le_refl _) ((isValid_iff_ok e).mp hv)
  · rw [prettyPrintInternal, if_neg hne]
  · rw [prettyPrintArgs]
  · rw [prettyPrintArgs]

/-- C9 witness: the strip equation at the concrete scenario expression
with the default indent. -/
theorem C9_witness :
    stripNlSp (prettyPrintExpr (.op .ADD [.op .MUL [.tag "PREMIUM_CALL",
      .amount (.int 3)], .tag "EXTRA_FEE", .amount (.int 250)]) 2) =
      serializeExpr (.op .ADD [.op .MUL [.tag "PREMIUM_CALL",
        .amount (.int 3)], .tag "EXTRA_FEE", .amount (.int 250)]) :=
  C9_pretty_strip.1 _ 2 (by decide)

/-- C10 counterexample: a one-argument op (fewer than 2 arguments) is not
pretty-printed as the operator name followed by `()`; it gets the
multi-line form. -/
theorem C10_counterexample :
    prettyPrintExpr (.op .ADD [.amount (.int 1)]) 2 ≠ "add()" ∧
      prettyPrintExpr (.op .ADD [.amount (.int 1)]) 2 = "add(\n  1\n)" := by
  exact ⟨by decide, by rfl⟩

/-- C10 amended: both printers are total functions of the tree — validity
is not a precondition — and in particular invalid trees that bypass the
builders (non-finite or non-integer amounts, empty tag names, ops with
too few arguments, DIV with a literal-zero divisor) all print; an Op with
zero arguments prints as the operator name followed by `()` under both
printers. -/
theorem C10_printers_total :
    (∀ o, serializeExpr (.op o []) = o.lower ++ "()") ∧
    (∀ o k, prettyPrintExpr (.op o []) k = o.lower ++ "()") ∧
    (serializeExpr (.amount .nan) = "NaN" ∧ isValidExpr (.amount .nan) = false) ∧
    (serializeExpr (.amount (.nonIntFinite "2.5")) = "2.5" ∧
      isValidExpr (.amount (.nonIntFinite "2.5")) = false) ∧
    (serializeExpr (.tag "") = "tag(\x27\x27)" ∧ isValidExpr (.tag "") = false) ∧
    (serializeExpr (.op .DIV [.amount (.int 100), .amount (.int 0)]) = "div(100,0)" ∧
      isValidExpr (.op .DIV [.amount (.int 100), .amount (.int 0)]) = false) ∧
    prettyPrintExpr (.op .DIV [.amount (.int 100), .amount (.int 0)]) 2 =
      "div(\n  100,\n  0\n)" := by
  refine ⟨fun o => ?_, fun o k => ?_, ⟨by rfl, by decide⟩, ⟨by rfl, by decide⟩,
    ⟨by decide, by decide⟩, ⟨by decide, by decide⟩, by decide⟩
  · cases o <;> rfl
  · rw [prettyPrintExpr, prettyPrintInternal,
      if_pos (show List.length ([] : List PriceExpr) = 0 from rfl)]

end Scrawn
